import Mathlib

/-!
# Verification of a one-way directory synchronizer

This file embeds the synchronization engine of the repository
(`main.py`, `yandex_cloud.py`, `util.py`, `cloud.py`) and proves the
specification claims about it.

Two embeddings are used:

* a pure model (`walk` / `synchronization`) of the happy-path pass:
  the recursive diff of a local directory tree against the cloud store,
  classification into upload / overwrite / delete tasks, the per-pass
  counters, and the effect of the dispatched operations on the store.
  Modification timestamps (floats compared only with `>`) are modelled
  by integers; a Python `dict` is modelled by an association list.

* an effectful model (`walkE` / `syncE`, defined further below) that
  makes exceptions, the mutable remote-path cursor
  (`cloud.name_folder_cloud`) and the executed operations explicit, for
  the error-handling and cursor claims.
-/

namespace Sync

/-- A node of the local filesystem tree: a file with its modification
timestamp (`os.path.getmtime`) or a directory with named children
(in `os.listdir` order). -/
inductive FsTree where
  | file (mtime : Int)
  | dir (children : List (String × FsTree))

/-- A node of the cloud store.  The Yandex listing (`get_info`) reports
the `modified` field of every child item, folders included, so folders
also carry a timestamp here. -/
inductive CTree where
  | file (mtime : Int)
  | dir (mtime : Int) (children : List (String × CTree))

/-- The `modified` timestamp a listing reports for an item. -/
def CTree.modified : CTree → Int
  | .file m => m
  | .dir m _ => m

/-- `os.path.isdir` on a local entry. -/
def FsTree.isDir : FsTree → Bool
  | .dir _ => true
  | .file _ => false

/-- Lookup in an association list keyed by name (a Python `dict` access). -/
def lookupN (n : String) : List (String × α) → Option α
  | [] => none
  | p :: rest => if p.1 = n then some p.2 else lookupN n rest

/-- Removal of the entry of a key (the `dict.pop` effect). -/
def eraseN (n : String) : List (String × α) → List (String × α)
  | [] => []
  | p :: rest => if p.1 = n then rest else p :: eraseN n rest

/-- Does a name occur among the keys? -/
def hasName (l : List (String × α)) (n : String) : Bool :=
  (lookupN n l).isSome

/-- All keys distinct (a Python `dict` and `os.listdir` both have this). -/
def nodupKeys : List (String × α) → Bool
  | [] => true
  | p :: rest => !hasName rest p.1 && nodupKeys rest

/-- `os.path.isdir(os.path.join(path_on_pc, n))`: the local directory has
a child named `n` that is a directory. -/
def isDirName (loc : List (String × FsTree)) (n : String) : Bool :=
  loc.any (fun p => p.1 == n && p.2.isDir)

/-- The local directory has a child named `n` that is a plain file. -/
def isFileName (loc : List (String × FsTree)) (n : String) : Bool :=
  loc.any (fun p => p.1 == n && !p.2.isDir)

/-- `YandexCloud.get_info`: the listing of one cloud directory, a map from
child name to its `modified` timestamp (files and folders alike). -/
def get_info (store : List (String × CTree)) : List (String × Int) :=
  store.map (fun p => (p.1, p.2.modified))

/-- A file-level operation dispatched by one pass over one directory. -/
inductive Op where
  | upload (name : String)
  | overwrite (name : String)
  | delete (name : String)
deriving DecidableEq

/-- Componentwise sum of the `(uploaded, deleted, overwritten)` counters. -/
def addC (a b : Nat × Nat × Nat) : Nat × Nat × Nat :=
  (a.1 + b.1, a.2.1 + b.2.1, a.2.2 + b.2.2)

/-- Replace the entry of `n`, or append a fresh one: the server-side
effect of storing a file named `n`. -/
def upsert (store : List (String × CTree)) (n : String) (t : CTree) :
    List (String × CTree) :=
  if hasName store n then
    store.map (fun p => if p.1 = n then (p.1, t) else p)
  else store ++ [(n, t)]

/-- Server-side effect of one dispatched operation, stamping stored files
with the server clock `T`.  `fails` says which dispatched operations fail;
a failed operation leaves the store unchanged. -/
def applyOp (T : Int) (fails : Op → Bool) (store : List (String × CTree)) :
    Op → List (String × CTree)
  | .upload n => if fails (.upload n) then store else upsert store n (CTree.file T)
  | .overwrite n => if fails (.overwrite n) then store else upsert store n (CTree.file T)
  | .delete n => if fails (.delete n) then store else eraseN n store

/-- Effect of the whole gathered batch of operations. -/
def applyOps (T : Int) (fails : Op → Bool) (store : List (String × CTree))
    (ops : List Op) : List (String × CTree) :=
  ops.foldl (applyOp T fails) store

/-- Replace a folder's children (a file entry is untouched). -/
def childUpd (cs : List (String × CTree)) : CTree → CTree
  | CTree.dir m _ => CTree.dir m cs
  | t => t

/-- Replace the children of the folder entry named `n` (the server-side
summary of what a child recursion did inside that folder). -/
def setChildren (store : List (String × CTree)) (n : String)
    (cs : List (String × CTree)) : List (String × CTree) :=
  store.map (fun p => if p.1 = n then (p.1, childUpd cs p.2) else p)

/-- The children of the folder entry named `n` (what the child recursion
will list), empty when the entry is absent. -/
def childStoreOf (store : List (String × CTree)) (n : String) :
    List (String × CTree) :=
  match lookupN n store with
  | some (CTree.dir _ cs) => cs
  | _ => []

/-- `is_exists_folder` followed by `create_folder_in_cloud`: ensure the
cloud folder named `n` exists, creating it empty (stamped with the server
clock `T`) when it is missing.  A same-named cloud *file* also makes
`is_exists_folder` answer true (the API existence probe accepts any
resource), so nothing is created then. -/
def ensureFolder (T : Int) (store : List (String × CTree)) (n : String) :
    List (String × CTree) :=
  if hasName store n then store else store ++ [(n, CTree.dir T [])]

/-- Result of processing the local children of one directory
(`synchronization`'s `for item in os.listdir(path_on_pc)` loop). -/
structure WalkRes where
  counts : Nat × Nat × Nat
  store : List (String × CTree)
  ops : List Op
  rem : List (String × Int)

/-- Result of one full pass over one directory. -/
structure PassResult where
  counts : Nat × Nat × Nat
  ops : List Op
  store : List (String × CTree)

/-- The tail of `synchronization` after the loop: the delete sweep over
the names remaining in `cloud_files` (skipping names that are local
directories), and `asyncio.gather` applying the collected tasks. -/
def levelFinish (T : Int) (fails : Op → Bool) (loc : List (String × FsTree))
    (w : WalkRes) : PassResult :=
  let dels := (w.rem.filter (fun p => !isDirName loc p.1)).map (fun p => Op.delete p.1)
  ⟨addC w.counts (0, dels.length, 0), w.ops ++ dels,
    applyOps T fails w.store (w.ops ++ dels)⟩

/-- The loop body of `synchronization` over the local children, carrying
the cloud store, and the `cloud_files` map `cf` that the file branch pops
from.  A directory child is recursed into (its whole sub-pass inlined
here as `levelFinish ... (walk ...)`), a file child is classified:
absent from `cf` ⇒ upload, present and strictly older remotely ⇒
overwrite, otherwise no task.  Counters are `(download_files,
deleted_files, rewritten_files)` exactly as in the code. -/
def walk (T : Int) (fails : Op → Bool) :
    List (String × FsTree) → List (String × CTree) → List (String × Int) → WalkRes
  | [], store, cf => ⟨(0, 0, 0), store, [], cf⟩
  | (n, FsTree.file m) :: rest, store, cf =>
    (match lookupN n cf with
     | none =>
       let r := walk T fails rest store cf
       ⟨addC (1, 0, 0) r.counts, r.store, Op.upload n :: r.ops, r.rem⟩
     | some cm =>
       let cf' := eraseN n cf
       if cm < m then
         let r := walk T fails rest store cf'
         ⟨addC (0, 0, 1) r.counts, r.store, Op.overwrite n :: r.ops, r.rem⟩
       else
         walk T fails rest store cf')
  | (n, FsTree.dir cs) :: rest, store, cf =>
    -- create the cloud folder when `is_exists_folder` is false
    let store1 := ensureFolder T store n
    -- the child recursion: a full sub-pass of `synchronization`
    let child := levelFinish T fails cs
      (walk T fails cs (childStoreOf store1 n) (get_info (childStoreOf store1 n)))
    let store2 := setChildren store1 n child.store
    let r := walk T fails rest store2 cf
    ⟨addC child.counts r.counts, r.store, r.ops, r.rem⟩
  termination_by loc _ _ => sizeOf loc
  decreasing_by
    all_goals simp_wf
    all_goals omega

/-- `synchronization(path_on_pc, cloud)` from `main.py`: one pass over one
directory of the local tree against the corresponding cloud directory,
returning the counters `(download_files, deleted_files, rewritten_files)`,
the tasks dispatched at this level, and the resulting cloud store. -/
def synchronization (T : Int) (fails : Op → Bool) (loc : List (String × FsTree))
    (store : List (String × CTree)) : PassResult :=
  levelFinish T fails loc (walk T fails loc store (get_info store))

/-! ## Association list lemmas -/

theorem lookupN_eraseN_ne {α : Type} {k n : String} (h : k ≠ n)
    (l : List (String × α)) : lookupN k (eraseN n l) = lookupN k l := by
  induction l with
  | nil => rfl
  | cons p rest ih =>
    by_cases hp : p.1 = n
    · simp only [eraseN, lookupN, if_pos hp]
      rw [if_neg]
      intro hk
      exact h (hk ▸ hp)
    · simp only [eraseN, lookupN, if_neg hp]
      by_cases hk : p.1 = k
      · simp [lookupN, hk]
      · simp only [lookupN, if_neg hk]
        exact ih

theorem lookupN_eraseN_self {α : Type} {n : String} {l : List (String × α)}
    (h : nodupKeys l = true) : lookupN n (eraseN n l) = none := by
  induction l with
  | nil => rfl
  | cons p rest ih =>
    simp only [nodupKeys, Bool.and_eq_true, Bool.not_eq_true'] at h
    by_cases hp : p.1 = n
    · simp only [eraseN, if_pos hp]
      subst hp
      simp only [hasName] at h
      cases hl : lookupN p.1 rest with
      | none => rfl
      | some v => rw [hl] at h; simp at h
    · simp only [eraseN, if_neg hp, lookupN, if_neg hp]
      exact ih h.2

theorem mem_of_lookupN {α : Type} {k : String} {v : α} {l : List (String × α)}
    (h : lookupN k l = some v) : (k, v) ∈ l := by
  induction l with
  | nil => simp [lookupN] at h
  | cons p rest ih =>
    simp only [lookupN] at h
    by_cases hp : p.1 = k
    · rw [if_pos hp] at h
      have : p = (k, v) := by cases p; simp_all
      rw [this]
      exact List.mem_cons_self _ _
    · rw [if_neg hp] at h
      exact List.mem_cons_of_mem _ (ih h)

theorem lookupN_isSome_of_mem {α : Type} {k : String} {v : α}
    {l : List (String × α)} (h : (k, v) ∈ l) : (lookupN k l).isSome = true := by
  induction l with
  | nil => simp at h
  | cons p rest ih =>
    rcases List.mem_cons.mp h with h1 | h1
    · simp [lookupN, ← h1]
    · simp only [lookupN]
      by_cases hp : p.1 = k
      · simp [hp]
      · rw [if_neg hp]
        exact ih h1

theorem lookupN_ne_none_of_mem {α : Type} {k : String} {v : α}
    {l : List (String × α)} (h : (k, v) ∈ l) : lookupN k l ≠ none := by
  have := lookupN_isSome_of_mem h
  cases hl : lookupN k l
  · rw [hl] at this; simp at this
  · simp

theorem mem_eraseN {α : Type} {k n : String} {v : α} {l : List (String × α)}
    (h : (k, v) ∈ eraseN n l) : (k, v) ∈ l := by
  induction l with
  | nil => simp [eraseN] at h
  | cons p rest ih =>
    simp only [eraseN] at h
    by_cases hp : p.1 = n
    · rw [if_pos hp] at h
      exact List.mem_cons_of_mem _ h
    · rw [if_neg hp] at h
      rcases List.mem_cons.mp h with h1 | h1
      · exact h1 ▸ List.mem_cons_self _ _
      · exact List.mem_cons_of_mem _ (ih h1)

theorem nodupKeys_eraseN {α : Type} {n : String} {l : List (String × α)}
    (h : nodupKeys l = true) : nodupKeys (eraseN n l) = true := by
  induction l with
  | nil => rfl
  | cons p rest ih =>
    simp only [nodupKeys, Bool.and_eq_true, Bool.not_eq_true'] at h
    by_cases hp : p.1 = n
    · simp only [eraseN, if_pos hp]
      exact h.2
    · simp only [eraseN, if_neg hp, nodupKeys, Bool.and_eq_true, Bool.not_eq_true']
      refine ⟨?_, ih h.2⟩
      simp only [hasName] at h ⊢
      by_cases hpn : p.1 = n
      · exact absurd hpn hp
      · cases he : lookupN p.1 (eraseN n rest) with
        | none => rfl
        | some w =>
          rw [lookupN_eraseN_ne hp rest] at he
          rw [he] at h
          simpa using h.1

theorem lookupN_get_info {n : String} (s : List (String × CTree)) :
    lookupN n (get_info s) = (lookupN n s).map CTree.modified := by
  induction s with
  | nil => rfl
  | cons p rest ih =>
    simp only [get_info, List.map_cons, lookupN]
    by_cases hp : p.1 = n
    · simp [hp]
    · simp only [if_neg hp]
      exact ih

theorem nodupKeys_get_info {s : List (String × CTree)}
    (h : nodupKeys s = true) : nodupKeys (get_info s) = true := by
  induction s with
  | nil => rfl
  | cons p rest ih =>
    simp only [nodupKeys, Bool.and_eq_true, Bool.not_eq_true'] at h ⊢
    refine ⟨?_, ih h.2⟩
    simp only [hasName] at h ⊢
    rw [show List.map (fun p => (p.1, p.2.modified)) rest = get_info rest from rfl,
      lookupN_get_info]
    cases hl : lookupN p.1 rest with
    | none => rfl
    | some v =>
      rw [hl] at h
      simp at h

/-! ## Unfolding equations of `walk` -/

theorem walk_nil (T : Int) (fails : Op → Bool) (store : List (String × CTree))
    (cf : List (String × Int)) :
    walk T fails [] store cf = ⟨(0, 0, 0), store, [], cf⟩ := by
  simp [walk]

theorem walk_file_none {n : String} {cf : List (String × Int)}
    (T : Int) (fails : Op → Bool) (m : Int) (rest : List (String × FsTree))
    (store : List (String × CTree)) (h : lookupN n cf = none) :
    walk T fails ((n, FsTree.file m) :: rest) store cf =
      ⟨addC (1, 0, 0) (walk T fails rest store cf).counts,
        (walk T fails rest store cf).store,
        Op.upload n :: (walk T fails rest store cf).ops,
        (walk T fails rest store cf).rem⟩ := by
  rw [walk]
  simp [h]

theorem walk_file_some_lt {n : String} {cf : List (String × Int)} {cm : Int}
    (T : Int) (fails : Op → Bool) {m : Int} (rest : List (String × FsTree))
    (store : List (String × CTree)) (h : lookupN n cf = some cm)
    (hlt : cm < m) :
    walk T fails ((n, FsTree.file m) :: rest) store cf =
      ⟨addC (0, 0, 1) (walk T fails rest store (eraseN n cf)).counts,
        (walk T fails rest store (eraseN n cf)).store,
        Op.overwrite n :: (walk T fails rest store (eraseN n cf)).ops,
        (walk T fails rest store (eraseN n cf)).rem⟩ := by
  rw [walk]
  simp [h, hlt]

theorem walk_file_some_ge {n : String} {cf : List (String × Int)} {cm : Int}
    (T : Int) (fails : Op → Bool) {m : Int} (rest : List (String × FsTree))
    (store : List (String × CTree)) (h : lookupN n cf = some cm)
    (hge : ¬cm < m) :
    walk T fails ((n, FsTree.file m) :: rest) store cf =
      walk T fails rest store (eraseN n cf) := by
  rw [walk]
  simp [h, hge]

theorem walk_dir (T : Int) (fails : Op → Bool) (n : String)
    (cs rest : List (String × FsTree)) (store : List (String × CTree))
    (cf : List (String × Int)) :
    walk T fails ((n, FsTree.dir cs) :: rest) store cf =
      ⟨addC (synchronization T fails cs (childStoreOf (ensureFolder T store n) n)).counts
          (walk T fails rest (setChildren (ensureFolder T store n) n
            (synchronization T fails cs
              (childStoreOf (ensureFolder T store n) n)).store) cf).counts,
        (walk T fails rest (setChildren (ensureFolder T store n) n
          (synchronization T fails cs
            (childStoreOf (ensureFolder T store n) n)).store) cf).store,
        (walk T fails rest (setChildren (ensureFolder T store n) n
          (synchronization T fails cs
            (childStoreOf (ensureFolder T store n) n)).store) cf).ops,
        (walk T fails rest (setChildren (ensureFolder T store n) n
          (synchronization T fails cs
            (childStoreOf (ensureFolder T store n) n)).store) cf).rem⟩ := by
  rw [walk]
  rfl

theorem isFileName_of_mem_file {loc : List (String × FsTree)} {k : String}
    {m : Int} (h : (k, FsTree.file m) ∈ loc) : isFileName loc k = true := by
  simp only [isFileName, List.any_eq_true]
  exact ⟨(k, FsTree.file m), h, by simp [FsTree.isDir]⟩

theorem isDirName_of_mem_dir {loc : List (String × FsTree)} {k : String}
    {cs : List (String × FsTree)} (h : (k, FsTree.dir cs) ∈ loc) :
    isDirName loc k = true := by
  simp only [isDirName, List.any_eq_true]
  exact ⟨(k, FsTree.dir cs), h, by simp [FsTree.isDir]⟩

theorem hasName_of_isFileName {loc : List (String × FsTree)} {k : String}
    (h : isFileName loc k = true) : hasName loc k = true := by
  simp only [isFileName, List.any_eq_true, Bool.and_eq_true, beq_iff_eq] at h
  obtain ⟨p, hp, hk, _⟩ := h
  have : (k, p.2) ∈ loc := by
    have := hp
    rwa [show p = (k, p.2) from by cases p; simp_all] at this
  simpa [hasName] using lookupN_isSome_of_mem this

theorem hasName_of_isDirName {loc : List (String × FsTree)} {k : String}
    (h : isDirName loc k = true) : hasName loc k = true := by
  simp only [isDirName, List.any_eq_true, Bool.and_eq_true, beq_iff_eq] at h
  obtain ⟨p, hp, hk, _⟩ := h
  have : (k, p.2) ∈ loc := by
    have := hp
    rwa [show p = (k, p.2) from by cases p; simp_all] at this
  simpa [hasName] using lookupN_isSome_of_mem this



/-! ## Characterization of the classification at one directory level -/

theorem isFileName_cons_file {n k : String} {m : Int}
    {rest : List (String × FsTree)} :
    isFileName ((n, FsTree.file m) :: rest) k = (n == k || isFileName rest k) := by
  simp [isFileName, FsTree.isDir, List.any_cons]

theorem isFileName_cons_dir {n k : String} {cs rest : List (String × FsTree)} :
    isFileName ((n, FsTree.dir cs) :: rest) k = isFileName rest k := by
  simp [isFileName, FsTree.isDir, List.any_cons]

theorem isDirName_cons_file {n k : String} {m : Int}
    {rest : List (String × FsTree)} :
    isDirName ((n, FsTree.file m) :: rest) k = isDirName rest k := by
  simp [isDirName, FsTree.isDir, List.any_cons]

theorem isDirName_cons_dir {n k : String} {cs rest : List (String × FsTree)} :
    isDirName ((n, FsTree.dir cs) :: rest) k = (n == k || isDirName rest k) := by
  simp [isDirName, FsTree.isDir, List.any_cons]

theorem isFileName_iff {loc : List (String × FsTree)} {k : String} :
    isFileName loc k = true ↔ ∃ m, (k, FsTree.file m) ∈ loc := by
  constructor
  · intro h
    simp only [isFileName, List.any_eq_true, Bool.and_eq_true, beq_iff_eq,
      Bool.not_eq_true'] at h
    obtain ⟨p, hp, hk, hd⟩ := h
    cases p with
    | mk a t =>
      cases t with
      | file m =>
        subst hk
        exact ⟨m, hp⟩
      | dir cs => simp [FsTree.isDir] at hd
  · rintro ⟨m, hm⟩
    exact isFileName_of_mem_file hm

theorem isDirName_iff {loc : List (String × FsTree)} {k : String} :
    isDirName loc k = true ↔ ∃ cs, (k, FsTree.dir cs) ∈ loc := by
  constructor
  · intro h
    simp only [isDirName, List.any_eq_true, Bool.and_eq_true, beq_iff_eq] at h
    obtain ⟨p, hp, hk, hd⟩ := h
    cases p with
    | mk a t =>
      cases t with
      | file m => simp [FsTree.isDir] at hd
      | dir cs =>
        subst hk
        exact ⟨cs, hp⟩
  · rintro ⟨cs, hm⟩
    exact isDirName_of_mem_dir hm



/-- No upload or overwrite task carries a name that is not a local file name. -/
theorem walk_count_zero_of_not_file (T : Int) (fails : Op → Bool)
    {loc : List (String × FsTree)} {k : String}
    (h : isFileName loc k = false) :
    ∀ (store : List (String × CTree)) (cf : List (String × Int)),
      (walk T fails loc store cf).ops.count (Op.upload k) = 0 ∧
      (walk T fails loc store cf).ops.count (Op.overwrite k) = 0 := by
  induction loc with
  | nil =>
    intro store cf
    simp [walk_nil]
  | cons p rest ih =>
    intro store cf
    cases p with
    | mk n t =>
      cases t with
      | file m =>
        rw [isFileName_cons_file] at h
        simp only [Bool.or_eq_false_iff, beq_eq_false_iff_ne] at h
        obtain ⟨hnk, hrest⟩ := h
        cases hcf : lookupN n cf with
        | none =>
          rw [walk_file_none T fails m rest store hcf]
          have := ih hrest store cf
          constructor
          · rw [List.count_cons_of_ne (fun hh => hnk (Op.upload.inj hh).symm)]
            exact this.1
          · rw [List.count_cons_of_ne (by simp)]
            exact this.2
        | some cm =>
          by_cases hlt : cm < m
          · rw [walk_file_some_lt T fails rest store hcf hlt]
            have := ih hrest store (eraseN n cf)
            constructor
            · rw [List.count_cons_of_ne (by simp)]
              exact this.1
            · rw [List.count_cons_of_ne (fun hh => hnk (Op.overwrite.inj hh).symm)]
              exact this.2
          · rw [walk_file_some_ge T fails rest store hcf hlt]
            exact ih hrest store (eraseN n cf)
      | dir cs =>
        rw [isFileName_cons_dir] at h
        rw [walk_dir]
        exact ih h _ cf



theorem isFileName_false_of_not_hasName {loc : List (String × FsTree)}
    {k : String} (h : hasName loc k = false) : isFileName loc k = false := by
  cases hf : isFileName loc k
  · rfl
  · have hh := hasName_of_isFileName hf
    rw [h] at hh
    simp at hh

/-- Upload classification: a local file is uploaded exactly when its name
is absent from the listing map, and then exactly once. -/
theorem walk_upload_count (T : Int) (fails : Op → Bool)
    {loc : List (String × FsTree)} {k : String} {m : Int}
    (hnd : nodupKeys loc = true) (hm : (k, FsTree.file m) ∈ loc) :
    ∀ (store : List (String × CTree)) (cf : List (String × Int)),
      (walk T fails loc store cf).ops.count (Op.upload k) =
        if lookupN k cf = none then 1 else 0 := by
  induction loc with
  | nil => simp at hm
  | cons p rest ih =>
    intro store cf
    simp only [nodupKeys, Bool.and_eq_true, Bool.not_eq_true'] at hnd
    rcases List.mem_cons.mp hm with hh | hh
    · -- the head is the file (k, m)
      cases p with
      | mk n t =>
        injection hh with hn ht
        subst hn
        subst ht
        have hrest : isFileName rest k = false :=
          isFileName_false_of_not_hasName hnd.1
        cases hcf : lookupN k cf with
        | none =>
          rw [walk_file_none T fails m rest store hcf]
          rw [List.count_cons_self]
          rw [(walk_count_zero_of_not_file T fails hrest store cf).1]
          simp [hcf]
        | some cm =>
          by_cases hlt : cm < m
          · rw [walk_file_some_lt T fails rest store hcf hlt]
            rw [List.count_cons_of_ne (by simp)]
            rw [(walk_count_zero_of_not_file T fails hrest store (eraseN k cf)).1]
            simp [hcf]
          · rw [walk_file_some_ge T fails rest store hcf hlt]
            rw [(walk_count_zero_of_not_file T fails hrest store (eraseN k cf)).1]
            simp [hcf]
    · -- the file is in the tail
      cases p with
      | mk n t =>
        have hnk : n ≠ k := by
          intro he
          subst he
          have := lookupN_isSome_of_mem hh
          simp only [hasName] at hnd
          rw [hnd.1] at this
          simp at this
        cases t with
        | file m' =>
          cases hcf : lookupN n cf with
          | none =>
            rw [walk_file_none T fails m' rest store hcf]
            rw [List.count_cons_of_ne (fun hh2 => hnk (Op.upload.inj hh2).symm)]
            exact ih hnd.2 hh store cf
          | some cm =>
            have hlk : lookupN k (eraseN n cf) = lookupN k cf :=
              lookupN_eraseN_ne (Ne.symm hnk) cf
            by_cases hlt : cm < m'
            · rw [walk_file_some_lt T fails rest store hcf hlt]
              rw [List.count_cons_of_ne (by simp)]
              rw [ih hnd.2 hh store (eraseN n cf), hlk]
            · rw [walk_file_some_ge T fails rest store hcf hlt]
              rw [ih hnd.2 hh store (eraseN n cf), hlk]
        | dir cs =>
          rw [walk_dir]
          exact ih hnd.2 hh _ cf

/-- Overwrite classification: a local file is overwritten exactly when its
name is in the listing map with a strictly smaller timestamp. -/
theorem walk_overwrite_count (T : Int) (fails : Op → Bool)
    {loc : List (String × FsTree)} {k : String} {m : Int}
    (hnd : nodupKeys loc = true) (hm : (k, FsTree.file m) ∈ loc) :
    ∀ (store : List (String × CTree)) (cf : List (String × Int)),
      (walk T fails loc store cf).ops.count (Op.overwrite k) =
        match lookupN k cf with
        | none => 0
        | some cm => if cm < m then 1 else 0 := by
  induction loc with
  | nil => simp at hm
  | cons p rest ih =>
    intro store cf
    simp only [nodupKeys, Bool.and_eq_true, Bool.not_eq_true'] at hnd
    rcases List.mem_cons.mp hm with hh | hh
    · cases p with
      | mk n t =>
        injection hh with hn ht
        subst hn
        subst ht
        have hrest : isFileName rest k = false :=
          isFileName_false_of_not_hasName hnd.1
        cases hcf : lookupN k cf with
        | none =>
          rw [walk_file_none T fails m rest store hcf]
          rw [List.count_cons_of_ne (by simp)]
          rw [(walk_count_zero_of_not_file T fails hrest store cf).2]
        | some cm =>
          by_cases hlt : cm < m
          · rw [walk_file_some_lt T fails rest store hcf hlt]
            rw [List.count_cons_self]
            rw [(walk_count_zero_of_not_file T fails hrest store (eraseN k cf)).2]
            simp [hlt]
          · rw [walk_file_some_ge T fails rest store hcf hlt]
            rw [(walk_count_zero_of_not_file T fails hrest store (eraseN k cf)).2]
            simp [hlt]
    · cases p with
      | mk n t =>
        have hnk : n ≠ k := by
          intro he
          subst he
          have := lookupN_isSome_of_mem hh
          simp only [hasName] at hnd
          rw [hnd.1] at this
          simp at this
        cases t with
        | file m' =>
          cases hcf : lookupN n cf with
          | none =>
            rw [walk_file_none T fails m' rest store hcf]
            rw [List.count_cons_of_ne (by simp)]
            exact ih hnd.2 hh store cf
          | some cm =>
            have hlk : lookupN k (eraseN n cf) = lookupN k cf :=
              lookupN_eraseN_ne (Ne.symm hnk) cf
            by_cases hlt : cm < m'
            · rw [walk_file_some_lt T fails rest store hcf hlt]
              rw [List.count_cons_of_ne (fun hh2 => hnk (Op.overwrite.inj hh2).symm)]
              rw [ih hnd.2 hh store (eraseN n cf), hlk]
            · rw [walk_file_some_ge T fails rest store hcf hlt]
              rw [ih hnd.2 hh store (eraseN n cf), hlk]
        | dir cs =>
          rw [walk_dir]
          exact ih hnd.2 hh _ cf

/-- The loop over local children never emits a delete task. -/
theorem walk_no_delete (T : Int) (fails : Op → Bool) {k : String} :
    ∀ (loc : List (String × FsTree)) (store : List (String × CTree))
      (cf : List (String × Int)), Op.delete k ∉ (walk T fails loc store cf).ops := by
  intro loc
  induction loc with
  | nil =>
    intro store cf
    simp [walk_nil]
  | cons p rest ih =>
    intro store cf
    cases p with
    | mk n t =>
      cases t with
      | file m =>
        cases hcf : lookupN n cf with
        | none =>
          rw [walk_file_none T fails m rest store hcf]
          intro hmem
          rcases List.mem_cons.mp hmem with hh | hh
          · exact Op.noConfusion hh
          · exact ih store cf hh
        | some cm =>
          by_cases hlt : cm < m
          · rw [walk_file_some_lt T fails rest store hcf hlt]
            intro hmem
            rcases List.mem_cons.mp hmem with hh | hh
            · exact Op.noConfusion hh
            · exact ih store (eraseN n cf) hh
          · rw [walk_file_some_ge T fails rest store hcf hlt]
            exact ih store (eraseN n cf)
      | dir cs =>
        rw [walk_dir]
        exact ih _ cf

/-- The map remaining after the loop: local file names are popped, all
other names keep their original listing entry. -/
theorem walk_rem (T : Int) (fails : Op → Bool) {k : String} :
    ∀ (loc : List (String × FsTree)) (store : List (String × CTree))
      (cf : List (String × Int)), nodupKeys cf = true →
      lookupN k (walk T fails loc store cf).rem =
        if isFileName loc k = true then none else lookupN k cf := by
  intro loc
  induction loc with
  | nil =>
    intro store cf _
    simp [walk_nil, isFileName]
  | cons p rest ih =>
    intro store cf hcfnd
    cases p with
    | mk n t =>
      cases t with
      | file m =>
        rw [isFileName_cons_file]
        cases hcf : lookupN n cf with
        | none =>
          rw [walk_file_none T fails m rest store hcf]
          rw [ih store cf hcfnd]
          by_cases hnk : n = k
          · subst hnk
            by_cases hf : isFileName rest n = true
            · simp [hf, hcf]
            · simp only [Bool.not_eq_true] at hf
              simp [hf, hcf]
          · have : (n == k) = false := by simp [hnk]
            simp [this]
        | some cm =>
          have hstep : ∀ s, lookupN k (walk T fails rest s (eraseN n cf)).rem =
              if isFileName rest k = true then none else lookupN k (eraseN n cf) :=
            fun s => ih s (eraseN n cf) (nodupKeys_eraseN hcfnd)
          have hgoal : lookupN k (walk T fails rest store (eraseN n cf)).rem =
              if (n == k || isFileName rest k) = true then none else lookupN k cf := by
            by_cases hnk : n = k
            · subst hnk
              rw [hstep store]
              by_cases hf : isFileName rest n = true
              · simp [hf]
              · simp only [Bool.not_eq_true] at hf
                simp [hf, lookupN_eraseN_self hcfnd]
            · rw [hstep store, lookupN_eraseN_ne (Ne.symm hnk) cf]
              have : (n == k) = false := by simp [hnk]
              simp [this]
          by_cases hlt : cm < m
          · rw [walk_file_some_lt T fails rest store hcf hlt]
            exact hgoal
          · rw [walk_file_some_ge T fails rest store hcf hlt]
            exact hgoal
      | dir cs =>
        rw [isFileName_cons_dir, walk_dir]
        exact ih _ cf hcfnd

/-- Every entry remaining after the loop was in the original listing. -/
theorem walk_rem_mem (T : Int) (fails : Op → Bool) {k : String} {v : Int} :
    ∀ (loc : List (String × FsTree)) (store : List (String × CTree))
      (cf : List (String × Int)),
      (k, v) ∈ (walk T fails loc store cf).rem → (k, v) ∈ cf := by
  intro loc
  induction loc with
  | nil =>
    intro store cf h
    rw [walk_nil] at h
    exact h
  | cons p rest ih =>
    intro store cf h
    cases p with
    | mk n t =>
      cases t with
      | file m =>
        cases hcf : lookupN n cf with
        | none =>
          rw [walk_file_none T fails m rest store hcf] at h
          exact ih store cf h
        | some cm =>
          by_cases hlt : cm < m
          · rw [walk_file_some_lt T fails rest store hcf hlt] at h
            exact mem_eraseN (ih store (eraseN n cf) h)
          · rw [walk_file_some_ge T fails rest store hcf hlt] at h
            exact mem_eraseN (ih store (eraseN n cf) h)
      | dir cs =>
        rw [walk_dir] at h
        exact ih _ cf h

/-- The remaining map keeps distinct keys. -/
theorem walk_rem_nodup (T : Int) (fails : Op → Bool) :
    ∀ (loc : List (String × FsTree)) (store : List (String × CTree))
      (cf : List (String × Int)), nodupKeys cf = true →
      nodupKeys (walk T fails loc store cf).rem = true := by
  intro loc
  induction loc with
  | nil =>
    intro store cf h
    rw [walk_nil]
    exact h
  | cons p rest ih =>
    intro store cf h
    cases p with
    | mk n t =>
      cases t with
      | file m =>
        cases hcf : lookupN n cf with
        | none =>
          rw [walk_file_none T fails m rest store hcf]
          exact ih store cf h
        | some cm =>
          by_cases hlt : cm < m
          · rw [walk_file_some_lt T fails rest store hcf hlt]
            exact ih store (eraseN n cf) (nodupKeys_eraseN h)
          · rw [walk_file_some_ge T fails rest store hcf hlt]
            exact ih store (eraseN n cf) (nodupKeys_eraseN h)
      | dir cs =>
        rw [walk_dir]
        exact ih _ cf h




/-! ## The per-directory diff: claims C1, C2, C8 -/

theorem synchronization_ops (T : Int) (fails : Op → Bool)
    (loc : List (String × FsTree)) (store : List (String × CTree)) :
    (synchronization T fails loc store).ops =
      (walk T fails loc store (get_info store)).ops ++
        ((walk T fails loc store (get_info store)).rem.filter
          (fun p => !isDirName loc p.1)).map (fun p => Op.delete p.1) := rfl

theorem mem_dels_iff {loc : List (String × FsTree)} {rem : List (String × Int)}
    {k : String} :
    Op.delete k ∈ (rem.filter (fun p => !isDirName loc p.1)).map
        (fun p => Op.delete p.1) ↔
      (∃ v, (k, v) ∈ rem) ∧ isDirName loc k = false := by
  constructor
  · intro h
    obtain ⟨p, hp, he⟩ := List.mem_map.mp h
    obtain ⟨hmem, hflt⟩ := List.mem_filter.mp hp
    have hk : p.1 = k := Op.delete.inj he
    subst hk
    refine ⟨⟨p.2, hmem⟩, ?_⟩
    simpa using hflt
  · rintro ⟨⟨v, hv⟩, hd⟩
    refine List.mem_map.mpr ⟨(k, v), List.mem_filter.mpr ⟨hv, ?_⟩, rfl⟩
    simp [hd]

theorem upload_not_mem_dels {loc : List (String × FsTree)}
    {rem : List (String × Int)} {k : String} :
    Op.upload k ∉ (rem.filter (fun p => !isDirName loc p.1)).map
      (fun p => Op.delete p.1) := by
  intro h
  obtain ⟨p, _, he⟩ := List.mem_map.mp h
  exact Op.noConfusion he

theorem overwrite_not_mem_dels {loc : List (String × FsTree)}
    {rem : List (String × Int)} {k : String} :
    Op.overwrite k ∉ (rem.filter (fun p => !isDirName loc p.1)).map
      (fun p => Op.delete p.1) := by
  intro h
  obtain ⟨p, _, he⟩ := List.mem_map.mp h
  exact Op.noConfusion he

theorem count_eq_zero_of_not_mem {α : Type} [DecidableEq α] {a : α}
    {l : List α} (h : a ∉ l) : l.count a = 0 :=
  List.count_eq_zero.mpr h

/-- A local file whose name is absent from the remote listing is never a
delete candidate of the same diff. -/
theorem file_not_delete (T : Int) (fails : Op → Bool)
    {loc : List (String × FsTree)} {store : List (String × CTree)}
    {n : String} {m : Int}
    (hs : nodupKeys store = true) (hm : (n, FsTree.file m) ∈ loc) :
    Op.delete n ∉ (synchronization T fails loc store).ops := by
  rw [synchronization_ops]
  intro h
  rcases List.mem_append.mp h with h1 | h1
  · exact walk_no_delete T fails loc store (get_info store) h1
  · obtain ⟨⟨v, hv⟩, _⟩ := mem_dels_iff.mp h1
    have hrem := @walk_rem T fails n loc store (get_info store)
      (nodupKeys_get_info hs)
    rw [isFileName_of_mem_file hm] at hrem
    simp only [if_pos rfl] at hrem
    exact lookupN_ne_none_of_mem hv hrem

/-- C1 (functional_correctness).  For every directory processed in a pass
and every local file child in it: if its name is absent from the remote
listing map, the pass classifies it as upload exactly once (and nothing
else); if its name is present, it is classified overwrite iff the local
modification timestamp is strictly greater than the remote one, and
otherwise no operation is issued for it. -/
theorem c1_file_classification (T : Int) (fails : Op → Bool)
    (loc : List (String × FsTree)) (store : List (String × CTree))
    (n : String) (m : Int)
    (hl : nodupKeys loc = true) (hs : nodupKeys store = true)
    (hm : (n, FsTree.file m) ∈ loc) :
    (lookupN n (get_info store) = none →
      (synchronization T fails loc store).ops.count (Op.upload n) = 1 ∧
      Op.overwrite n ∉ (synchronization T fails loc store).ops ∧
      Op.delete n ∉ (synchronization T fails loc store).ops) ∧
    (∀ cm, lookupN n (get_info store) = some cm →
      ((Op.overwrite n ∈ (synchronization T fails loc store).ops ↔ cm < m) ∧
      Op.upload n ∉ (synchronization T fails loc store).ops ∧
      Op.delete n ∉ (synchronization T fails loc store).ops)) := by
  have hup := walk_upload_count T fails hl hm store (get_info store)
  have hov := walk_overwrite_count T fails hl hm store (get_info store)
  constructor
  · intro hnone
    refine ⟨?_, ?_, file_not_delete T fails hs hm⟩
    · rw [synchronization_ops, List.count_append,
        count_eq_zero_of_not_mem upload_not_mem_dels, hup]
      simp [hnone]
    · rw [synchronization_ops]
      intro h
      rcases List.mem_append.mp h with h1 | h1
      · have := List.count_pos_iff.mpr h1
        rw [hov] at this
        rw [hnone] at this
        simp at this
      · exact overwrite_not_mem_dels h1
  · intro cm hsome
    have hcount : (walk T fails loc store (get_info store)).ops.count
        (Op.overwrite n) = if cm < m then 1 else 0 := by
      rw [hov, hsome]
    refine ⟨?_, ?_, file_not_delete T fails hs hm⟩
    · constructor
      · intro h
        rw [synchronization_ops] at h
        rcases List.mem_append.mp h with h1 | h1
        · have := List.count_pos_iff.mpr h1
          rw [hcount] at this
          by_cases hlt : cm < m
          · exact hlt
          · rw [if_neg hlt] at this
            simp at this
        · exact absurd h1 overwrite_not_mem_dels
      · intro hlt
        rw [synchronization_ops]
        refine List.mem_append.mpr (Or.inl ?_)
        refine List.count_pos_iff.mp ?_
        rw [hcount, if_pos hlt]
        omega
    · rw [synchronization_ops]
      intro h
      rcases List.mem_append.mp h with h1 | h1
      · have := List.count_pos_iff.mpr h1
        rw [hup, hsome] at this
        simp at this
      · exact upload_not_mem_dels h1

/-- C2 (functional_correctness).  For every directory processed in a pass,
every name that appears in the remote listing but has no same-named local
file is classified delete, unless a local directory of that name exists,
in which case it is never a delete candidate (it is recursed into
instead); and it is never classified upload or overwrite. -/
theorem c2_remote_only_delete (T : Int) (fails : Op → Bool)
    (loc : List (String × FsTree)) (store : List (String × CTree))
    (r : String) (cm : Int)
    (hs : nodupKeys store = true)
    (hr : lookupN r (get_info store) = some cm)
    (hnf : isFileName loc r = false) :
    (Op.delete r ∈ (synchronization T fails loc store).ops ↔
      isDirName loc r = false) ∧
    Op.upload r ∉ (synchronization T fails loc store).ops ∧
    Op.overwrite r ∉ (synchronization T fails loc store).ops := by
  have hrem := @walk_rem T fails r loc store (get_info store)
    (nodupKeys_get_info hs)
  rw [hnf] at hrem
  simp only [Bool.false_eq_true, if_false] at hrem
  rw [hr] at hrem
  refine ⟨?_, ?_, ?_⟩
  · rw [synchronization_ops]
    constructor
    · intro h
      rcases List.mem_append.mp h with h1 | h1
      · exact absurd h1 (walk_no_delete T fails loc store (get_info store))
      · exact (mem_dels_iff.mp h1).2
    · intro hd
      refine List.mem_append.mpr (Or.inr ?_)
      exact mem_dels_iff.mpr ⟨⟨cm, mem_of_lookupN hrem⟩, hd⟩
  · rw [synchronization_ops]
    intro h
    rcases List.mem_append.mp h with h1 | h1
    · have := List.count_pos_iff.mpr h1
      rw [(walk_count_zero_of_not_file T fails hnf store (get_info store)).1] at this
      simp at this
    · exact upload_not_mem_dels h1
  · rw [synchronization_ops]
    intro h
    rcases List.mem_append.mp h with h1 | h1
    · have := List.count_pos_iff.mpr h1
      rw [(walk_count_zero_of_not_file T fails hnf store (get_info store)).2] at this
      simp at this
    · exact overwrite_not_mem_dels h1

/-- C8 (invariants).  In every single diff of one directory, no name is
classified into more than one of the upload, overwrite and delete sets. -/
theorem c8_no_double_classification (T : Int) (fails : Op → Bool)
    (loc : List (String × FsTree)) (store : List (String × CTree))
    (hl : nodupKeys loc = true) (hs : nodupKeys store = true) (k : String) :
    ¬(Op.upload k ∈ (synchronization T fails loc store).ops ∧
      Op.overwrite k ∈ (synchronization T fails loc store).ops) ∧
    ¬(Op.upload k ∈ (synchronization T fails loc store).ops ∧
      Op.delete k ∈ (synchronization T fails loc store).ops) ∧
    ¬(Op.overwrite k ∈ (synchronization T fails loc store).ops ∧
      Op.delete k ∈ (synchronization T fails loc store).ops) := by
  have hfile : ∀ op ∈ (walk T fails loc store (get_info store)).ops,
      (op = Op.upload k ∨ op = Op.overwrite k) → isFileName loc k = true := by
    intro op hop hcase
    by_contra hference
    simp only [Bool.not_eq_true] at hference
    have hz := walk_count_zero_of_not_file T fails hference store (get_info store)
    rcases hcase with he | he
    · subst he
      have := List.count_pos_iff.mpr hop
      rw [hz.1] at this
      simp at this
    · subst he
      have := List.count_pos_iff.mpr hop
      rw [hz.2] at this
      simp at this
  have hdel : Op.delete k ∈ (synchronization T fails loc store).ops →
      isFileName loc k = false := by
    intro h
    rw [synchronization_ops] at h
    rcases List.mem_append.mp h with h1 | h1
    · exact absurd h1 (walk_no_delete T fails loc store (get_info store))
    · obtain ⟨⟨v, hv⟩, _⟩ := mem_dels_iff.mp h1
      by_contra hf
      simp only [Bool.not_eq_false] at hf
      have hrem := @walk_rem T fails k loc store (get_info store)
        (nodupKeys_get_info hs)
      rw [hf] at hrem
      simp only [if_pos rfl] at hrem
      exact lookupN_ne_none_of_mem hv hrem
  have hupmem : Op.upload k ∈ (synchronization T fails loc store).ops →
      isFileName loc k = true ∧ lookupN k (get_info store) = none := by
    intro h
    rw [synchronization_ops] at h
    rcases List.mem_append.mp h with h1 | h1
    · have hf := hfile _ h1 (Or.inl rfl)
      obtain ⟨m, hmm⟩ := isFileName_iff.mp hf
      refine ⟨hf, ?_⟩
      have := List.count_pos_iff.mpr h1
      rw [walk_upload_count T fails hl hmm store (get_info store)] at this
      by_cases hn : lookupN k (get_info store) = none
      · exact hn
      · rw [if_neg hn] at this
        simp at this
    · exact absurd h1 upload_not_mem_dels
  have hovmem : Op.overwrite k ∈ (synchronization T fails loc store).ops →
      isFileName loc k = true ∧ lookupN k (get_info store) ≠ none := by
    intro h
    rw [synchronization_ops] at h
    rcases List.mem_append.mp h with h1 | h1
    · have hf := hfile _ h1 (Or.inr rfl)
      obtain ⟨m, hmm⟩ := isFileName_iff.mp hf
      refine ⟨hf, ?_⟩
      have := List.count_pos_iff.mpr h1
      rw [walk_overwrite_count T fails hl hmm store (get_info store)] at this
      cases hn : lookupN k (get_info store) with
      | none =>
        rw [hn] at this
        simp at this
      | some cm => simp [hn]
    · exact absurd h1 overwrite_not_mem_dels
  refine ⟨?_, ?_, ?_⟩
  · rintro ⟨h1, h2⟩
    exact (hovmem h2).2 (hupmem h1).2
  · rintro ⟨h1, h2⟩
    rw [hdel h2] at hupmem
    have := (hupmem h1).1
    simp at this
  · rintro ⟨h1, h2⟩
    rw [hdel h2] at hovmem
    have := (hovmem h1).1
    simp at this




/-- Witness for C1: in a concrete diff, the local file `a` (absent
remotely) is uploaded exactly once. -/
theorem c1_file_classification_witness :
    (synchronization 7 (fun _ => false) [("a", FsTree.file 3)]
      [("b", CTree.file 1)]).ops.count (Op.upload "a") = 1 :=
  ((c1_file_classification 7 (fun _ => false) [("a", FsTree.file 3)]
    [("b", CTree.file 1)] "a" 3 (by decide) (by decide)
    (List.mem_cons_self _ _)).1 (by decide)).1

/-- Witness for C2: in a concrete diff, the remote-only file `x` is
classified delete. -/
theorem c2_remote_only_delete_witness :
    Op.delete "x" ∈ (synchronization 7 (fun _ => false) [("d", FsTree.dir [])]
      [("x", CTree.file 5), ("d", CTree.dir 1 [])]).ops :=
  ((c2_remote_only_delete 7 (fun _ => false) [("d", FsTree.dir [])]
    [("x", CTree.file 5), ("d", CTree.dir 1 [])] "x" 5 (by decide)
    (by decide) (by decide)).1).mpr (by decide)

/-- Witness for C8: in a concrete diff, the name `a` is not classified
both upload and overwrite. -/
theorem c8_no_double_classification_witness :
    ¬(Op.upload "a" ∈ (synchronization 7 (fun _ => false)
        [("a", FsTree.file 3)] [("a", CTree.file 1)]).ops ∧
      Op.overwrite "a" ∈ (synchronization 7 (fun _ => false)
        [("a", FsTree.file 3)] [("a", CTree.file 1)]).ops) :=
  (c8_no_double_classification 7 (fun _ => false) [("a", FsTree.file 3)]
    [("a", CTree.file 1)] (by decide) (by decide) "a").1




/-! ## Claim C9: shape of the returned counters -/

/-- Number of upload tasks in a batch. -/
def countUploads (ops : List Op) : Nat :=
  ops.countP (fun o => match o with | Op.upload _ => true | _ => false)

/-- Number of overwrite tasks in a batch. -/
def countOverwrites (ops : List Op) : Nat :=
  ops.countP (fun o => match o with | Op.overwrite _ => true | _ => false)

/-- Number of delete tasks in a batch. -/
def countDeletes (ops : List Op) : Nat :=
  ops.countP (fun o => match o with | Op.delete _ => true | _ => false)

/-- The directory children of a local directory, with their contents. -/
def dirChildren (loc : List (String × FsTree)) :
    List (String × List (String × FsTree)) :=
  loc.filterMap (fun p => match p.2 with
    | FsTree.dir cs => some (p.1, cs)
    | _ => none)

/-- Componentwise sum of a list of counters. -/
def sumC (l : List (Nat × Nat × Nat)) : Nat × Nat × Nat :=
  l.foldr addC (0, 0, 0)

theorem lookupN_append {α : Type} {k : String} (l1 l2 : List (String × α)) :
    lookupN k (l1 ++ l2) =
      match lookupN k l1 with
      | some v => some v
      | none => lookupN k l2 := by
  induction l1 with
  | nil => simp [lookupN]
  | cons p rest ih =>
    by_cases hp : p.1 = k
    · simp [lookupN, hp]
    · simp only [List.cons_append, lookupN, if_neg hp]
      exact ih

theorem childStoreOf_ensureFolder (T : Int) (store : List (String × CTree))
    (n : String) :
    childStoreOf (ensureFolder T store n) n = childStoreOf store n := by
  unfold ensureFolder
  cases hh : hasName store n with
  | true => simp
  | false =>
    simp only [Bool.false_eq_true, if_false]
    have hl : lookupN n store = none := by
      simp only [hasName] at hh
      cases hl2 : lookupN n store
      · rfl
      · rw [hl2] at hh
        simp at hh
    unfold childStoreOf
    rw [lookupN_append, hl]
    simp [lookupN]

theorem lookupN_ensureFolder_ne {k n : String} (T : Int)
    (store : List (String × CTree)) (h : k ≠ n) :
    lookupN k (ensureFolder T store n) = lookupN k store := by
  unfold ensureFolder
  cases hh : hasName store n with
  | true => simp
  | false =>
    simp only [Bool.false_eq_true, if_false]
    rw [lookupN_append]
    cases hl : lookupN k store with
    | some v => rfl
    | none =>
      have hnk : ¬n = k := fun hc => h hc.symm
      simp [lookupN, hnk]

theorem lookupN_setChildren_ne {k n : String} (store : List (String × CTree))
    (cs : List (String × CTree)) (h : k ≠ n) :
    lookupN k (setChildren store n cs) = lookupN k store := by
  induction store with
  | nil => rfl
  | cons p rest ih =>
    unfold setChildren at ih ⊢
    simp only [List.map_cons]
    by_cases hp : p.1 = n
    · simp only [if_pos hp, lookupN]
      rw [if_neg (by rw [hp]; exact fun hc => h hc.symm), if_neg (by
        rw [hp]; exact fun hc => h hc.symm)]
      exact ih
    · simp only [if_neg hp, lookupN]
      by_cases hk : p.1 = k
      · simp [hk]
      · rw [if_neg hk, if_neg hk]
        exact ih

/-- The counters of the local-children loop: uploads and overwrites
emitted at this level plus the full counters of each child directory's
sub-pass (the loop emits no deletes of its own). -/
theorem walk_counts_sum (T : Int) (fails : Op → Bool)
    {loc : List (String × FsTree)} (hl : nodupKeys loc = true) :
    ∀ (store0 store : List (String × CTree)) (cf : List (String × Int)),
      (∀ p ∈ loc, lookupN p.1 store = lookupN p.1 store0) →
      (walk T fails loc store cf).counts =
        addC (countUploads (walk T fails loc store cf).ops, 0,
              countOverwrites (walk T fails loc store cf).ops)
          (sumC ((dirChildren loc).map (fun q =>
            (synchronization T fails q.2 (childStoreOf store0 q.1)).counts))) := by
  induction loc with
  | nil =>
    intro store0 store cf _
    simp [walk_nil, dirChildren, sumC, addC, countUploads, countOverwrites]
  | cons p rest ih =>
    intro store0 store cf hag
    simp only [nodupKeys, Bool.and_eq_true, Bool.not_eq_true'] at hl
    have hagrest : ∀ q ∈ rest, lookupN q.1 store = lookupN q.1 store0 :=
      fun q hq => hag q (List.mem_cons_of_mem _ hq)
    cases p with
    | mk n t =>
      cases t with
      | file m =>
        have hdc : dirChildren ((n, FsTree.file m) :: rest) = dirChildren rest := by
          simp [dirChildren]
        cases hcf : lookupN n cf with
        | none =>
          rw [walk_file_none T fails m rest store hcf, hdc]
          rw [ih hl.2 store0 store cf hagrest]
          simp only [countUploads, countOverwrites, List.countP_cons]
          simp [addC]
          omega
        | some cm =>
          by_cases hlt : cm < m
          · rw [walk_file_some_lt T fails rest store hcf hlt, hdc]
            rw [ih hl.2 store0 store (eraseN n cf) hagrest]
            simp only [countUploads, countOverwrites, List.countP_cons]
            simp [addC]
            omega
          · rw [walk_file_some_ge T fails rest store hcf hlt, hdc]
            exact ih hl.2 store0 store (eraseN n cf) hagrest
      | dir cs =>
        have hdc : dirChildren ((n, FsTree.dir cs) :: rest) =
            (n, cs) :: dirChildren rest := by
          simp [dirChildren]
        rw [walk_dir, hdc]
        have hchild : childStoreOf (ensureFolder T store n) n =
            childStoreOf store0 n := by
          rw [childStoreOf_ensureFolder]
          unfold childStoreOf
          rw [hag (n, FsTree.dir cs) (List.mem_cons_self _ _)]
        rw [hchild]
        have hagrest2 : ∀ q ∈ rest,
            lookupN q.1 (setChildren (ensureFolder T store n) n
              (synchronization T fails cs (childStoreOf store0 n)).store) =
            lookupN q.1 store0 := by
          intro q hq
          have hqn : q.1 ≠ n := by
            intro he
            have hsome := lookupN_isSome_of_mem (l := rest) (by
              rw [show q = (q.1, q.2) from rfl] at hq
              rw [he] at hq
              exact hq)
            simp only [hasName] at hl
            rw [hl.1] at hsome
            simp at hsome
          rw [lookupN_setChildren_ne _ _ hqn, lookupN_ensureFolder_ne T store hqn]
          exact hagrest q hq
        rw [ih hl.2 store0 _ cf hagrest2]
        simp only [sumC, List.map_cons, List.foldr_cons]
        simp [addC]
        omega

/-- C9 counterexample.  On a tree with exactly one overwrite and nothing
else, `synchronization` returns `(0, 0, 1)`: the overwrite count is the
third component and the delete count the second, so the returned triple is
not `(uploaded, overwritten, deleted)` — that order would require
`(0, 1, 0)`. -/
theorem c9_counterexample :
    (synchronization 10 (fun _ => false) [("a", FsTree.file 5)]
      [("a", CTree.file 3)]).ops = [Op.overwrite "a"] ∧
    (synchronization 10 (fun _ => false) [("a", FsTree.file 5)]
      [("a", CTree.file 3)]).counts = (0, 0, 1) ∧
    ((0, 0, 1) : Nat × Nat × Nat) ≠ (0, 1, 0) := by
  refine ⟨?_, ?_, by decide⟩
  · simp [synchronization, walk, levelFinish, get_info, lookupN, eraseN,
      isDirName, applyOps, applyOp, addC, CTree.modified, FsTree.isDir]
  · simp [synchronization, walk, levelFinish, get_info, lookupN, eraseN,
      isDirName, applyOps, applyOp, addC, CTree.modified, FsTree.isDir]

/-- C9 amended (functional_correctness).  The engine returns the triple of
counts in the order `(uploaded, deleted, overwritten)` — not
`(uploaded, overwritten, deleted)` — where each component is the number of
tasks of that kind classified at this level plus the sum of the child
directories' corresponding totals (one recursive call per local
subdirectory, child counts summed into the caller's totals). -/
theorem c9_returned_triple (T : Int) (fails : Op → Bool)
    (loc : List (String × FsTree)) (store : List (String × CTree))
    (hl : nodupKeys loc = true) :
    (synchronization T fails loc store).counts =
      (countUploads (synchronization T fails loc store).ops +
        (sumC ((dirChildren loc).map (fun q =>
          (synchronization T fails q.2 (childStoreOf store q.1)).counts))).1,
       countDeletes (synchronization T fails loc store).ops +
        (sumC ((dirChildren loc).map (fun q =>
          (synchronization T fails q.2 (childStoreOf store q.1)).counts))).2.1,
       countOverwrites (synchronization T fails loc store).ops +
        (sumC ((dirChildren loc).map (fun q =>
          (synchronization T fails q.2 (childStoreOf store q.1)).counts))).2.2) := by
  have hw := walk_counts_sum T fails hl store store (get_info store)
    (fun p _ => rfl)
  have hops := synchronization_ops T fails loc store
  have hcounts : (synchronization T fails loc store).counts =
      addC (walk T fails loc store (get_info store)).counts
        (0, (((walk T fails loc store (get_info store)).rem.filter
          (fun p => !isDirName loc p.1)).map (fun p => Op.delete p.1)).length,
          0) := rfl
  -- the delete sweep contributes only deletes; the loop contributes none
  have hdels_del : countDeletes (((walk T fails loc store
      (get_info store)).rem.filter (fun p => !isDirName loc p.1)).map
        (fun p => Op.delete p.1)) =
      ((((walk T fails loc store (get_info store)).rem.filter
        (fun p => !isDirName loc p.1))).map (fun p => Op.delete p.1)).length := by
    refine List.countP_eq_length.mpr ?_
    intro a ha
    obtain ⟨p, _, he⟩ := List.mem_map.mp ha
    rw [← he]
  have hdels_up : countUploads (((walk T fails loc store
      (get_info store)).rem.filter (fun p => !isDirName loc p.1)).map
        (fun p => Op.delete p.1)) = 0 := by
    refine List.countP_eq_zero.mpr ?_
    intro a ha
    obtain ⟨p, _, he⟩ := List.mem_map.mp ha
    rw [← he]
    simp
  have hdels_ov : countOverwrites (((walk T fails loc store
      (get_info store)).rem.filter (fun p => !isDirName loc p.1)).map
        (fun p => Op.delete p.1)) = 0 := by
    refine List.countP_eq_zero.mpr ?_
    intro a ha
    obtain ⟨p, _, he⟩ := List.mem_map.mp ha
    rw [← he]
    simp
  have hwalk_del : countDeletes (walk T fails loc store (get_info store)).ops = 0 := by
    refine List.countP_eq_zero.mpr ?_
    intro a ha
    cases a with
    | upload k => simp
    | overwrite k => simp
    | delete k => exact absurd ha (walk_no_delete T fails loc store (get_info store))
  rw [hcounts, hw, hops]
  simp only [countUploads, countOverwrites, countDeletes, List.countP_append]
    at hdels_up hdels_ov hdels_del hwalk_del ⊢
  rw [hdels_up, hdels_ov, hdels_del, hwalk_del]
  simp only [addC, Prod.mk.injEq]
  refine ⟨by omega, by omega, by omega⟩




/-! ## Claim C10: counters are fixed at classification time -/

/-- Well-founded induction on the size of a local tree list. -/
theorem sizeOf_ind {motive : List (String × FsTree) → Prop}
    (step : ∀ loc, (∀ loc2 : List (String × FsTree),
      sizeOf loc2 < sizeOf loc → motive loc2) → motive loc) :
    ∀ loc, motive loc := by
  have general : ∀ (N : Nat) (loc : List (String × FsTree)),
      sizeOf loc ≤ N → motive loc := by
    intro N
    induction N with
    | zero =>
      intro loc hle
      exact step loc (fun loc2 h2 =>
        absurd (Nat.lt_of_lt_of_le h2 hle) (Nat.not_lt_zero _))
    | succ N ihN =>
      intro loc hle
      exact step loc (fun loc2 h2 => ihN loc2 (by omega))
  exact fun loc => general (sizeOf loc) loc (Nat.le_refl _)

theorem sizeOf_children_lt (n : String) (cs rest : List (String × FsTree)) :
    sizeOf cs < sizeOf ((n, FsTree.dir cs) :: rest) := by
  simp
  omega

theorem sizeOf_rest_lt (p : String × FsTree) (rest : List (String × FsTree)) :
    sizeOf rest < sizeOf (p :: rest) := by
  cases p
  simp

/-- `os.listdir` names are distinct at every level of the local tree. -/
def nodupTree : List (String × FsTree) → Bool
  | [] => true
  | (n, FsTree.file _) :: rest => !hasName rest n && nodupTree rest
  | (n, FsTree.dir cs) :: rest => !hasName rest n && nodupTree cs && nodupTree rest
  termination_by loc => sizeOf loc
  decreasing_by
    all_goals simp_wf
    all_goals omega

theorem nodupTree_nil : nodupTree [] = true := by
  simp [nodupTree]

theorem nodupTree_cons_file {n : String} {m : Int} {rest : List (String × FsTree)} :
    nodupTree ((n, FsTree.file m) :: rest) = (!hasName rest n && nodupTree rest) := by
  simp [nodupTree]

theorem nodupTree_cons_dir {n : String} {cs rest : List (String × FsTree)} :
    nodupTree ((n, FsTree.dir cs) :: rest) =
      (!hasName rest n && nodupTree cs && nodupTree rest) := by
  simp [nodupTree]

theorem nodupKeys_of_nodupTree {loc : List (String × FsTree)}
    (h : nodupTree loc = true) : nodupKeys loc = true := by
  induction loc with
  | nil => rfl
  | cons p rest ih =>
    cases p with
    | mk n t =>
      cases t with
      | file m =>
        rw [nodupTree_cons_file] at h
        simp only [Bool.and_eq_true] at h
        simp only [nodupKeys, Bool.and_eq_true]
        exact ⟨h.1, ih h.2⟩
      | dir cs =>
        rw [nodupTree_cons_dir] at h
        simp only [Bool.and_eq_true] at h
        simp only [nodupKeys, Bool.and_eq_true]
        exact ⟨h.1.1, ih h.2⟩

/-- The classification (counters, task batch, remaining map) of a pass does
not depend on which dispatched operations succeed, nor on store differences
at names that do not occur locally. -/
theorem walk_fails_invariant (T : Int) :
    ∀ loc : List (String × FsTree), nodupTree loc = true →
      ∀ (fails fails' : Op → Bool) (storeA storeB : List (String × CTree))
        (cf : List (String × Int)),
        (∀ p ∈ loc, lookupN p.1 storeA = lookupN p.1 storeB) →
        (walk T fails loc storeA cf).counts = (walk T fails' loc storeB cf).counts ∧
        (walk T fails loc storeA cf).ops = (walk T fails' loc storeB cf).ops ∧
        (walk T fails loc storeA cf).rem = (walk T fails' loc storeB cf).rem := by
  refine sizeOf_ind ?_
  intro loc IH hnd fails fails' storeA storeB cf hag
  cases loc with
  | nil => simp [walk_nil]
  | cons p rest =>
    cases p with
    | mk n t =>
      cases t with
      | file m =>
        rw [nodupTree_cons_file] at hnd
        simp only [Bool.and_eq_true] at hnd
        have hrest := IH rest (sizeOf_rest_lt _ _) hnd.2 fails fails' storeA storeB
        have hagrest : ∀ q ∈ rest, lookupN q.1 storeA = lookupN q.1 storeB :=
          fun q hq => hag q (List.mem_cons_of_mem _ hq)
        cases hcf : lookupN n cf with
        | none =>
          rw [walk_file_none T fails m rest storeA hcf,
            walk_file_none T fails' m rest storeB hcf]
          have h := hrest cf hagrest
          refine ⟨?_, ?_, h.2.2⟩
          · rw [h.1]
          · rw [h.2.1]
        | some cm =>
          by_cases hlt : cm < m
          · rw [walk_file_some_lt T fails rest storeA hcf hlt,
              walk_file_some_lt T fails' rest storeB hcf hlt]
            have h := hrest (eraseN n cf) hagrest
            refine ⟨?_, ?_, h.2.2⟩
            · rw [h.1]
            · rw [h.2.1]
          · rw [walk_file_some_ge T fails rest storeA hcf hlt,
              walk_file_some_ge T fails' rest storeB hcf hlt]
            exact hrest (eraseN n cf) hagrest
      | dir cs =>
        rw [nodupTree_cons_dir] at hnd
        simp only [Bool.and_eq_true] at hnd
        have hS : childStoreOf (ensureFolder T storeA n) n =
            childStoreOf (ensureFolder T storeB n) n := by
          rw [childStoreOf_ensureFolder, childStoreOf_ensureFolder]
          unfold childStoreOf
          rw [hag (n, FsTree.dir cs) (List.mem_cons_self _ _)]
        -- the two child sub-passes agree on counters, tasks and remainder
        have hwalkcs := IH cs (sizeOf_children_lt n cs rest) hnd.1.2 fails fails'
          (childStoreOf (ensureFolder T storeA n) n)
          (childStoreOf (ensureFolder T storeA n) n)
          (get_info (childStoreOf (ensureFolder T storeA n) n))
          (fun q _ => rfl)
        have hchild :
            (synchronization T fails cs (childStoreOf (ensureFolder T storeA n) n)).counts =
              (synchronization T fails' cs (childStoreOf (ensureFolder T storeB n) n)).counts := by
          rw [← hS]
          show (levelFinish T fails cs _).counts = (levelFinish T fails' cs _).counts
          unfold levelFinish
          simp only
          rw [hwalkcs.1, hwalkcs.2.2]
        have hagrest2 : ∀ q ∈ rest,
            lookupN q.1 (setChildren (ensureFolder T storeA n) n
              (synchronization T fails cs
                (childStoreOf (ensureFolder T storeA n) n)).store) =
            lookupN q.1 (setChildren (ensureFolder T storeB n) n
              (synchronization T fails' cs
                (childStoreOf (ensureFolder T storeB n) n)).store) := by
          intro q hq
          have hqn : q.1 ≠ n := by
            intro he
            have hsome := lookupN_isSome_of_mem (l := rest) (by
              rw [show q = (q.1, q.2) from rfl] at hq
              rw [he] at hq
              exact hq)
            have h11 : (lookupN n rest).isSome = false := by
              have h12 := hnd.1.1
              simp only [hasName, Bool.not_eq_true'] at h12
              exact h12
            rw [h11] at hsome
            simp at hsome
          rw [lookupN_setChildren_ne _ _ hqn, lookupN_setChildren_ne _ _ hqn,
            lookupN_ensureFolder_ne T storeA hqn, lookupN_ensureFolder_ne T storeB hqn]
          exact hag q (List.mem_cons_of_mem _ hq)
        have hrest := IH rest (sizeOf_rest_lt _ _) hnd.2 fails fails' _ _ cf hagrest2
        rw [walk_dir, walk_dir]
        refine ⟨?_, ?_, hrest.2.2⟩
        · rw [hchild, hrest.1]
        · rw [hrest.2.1]

/-- C10 (functional_correctness).  The engine's counts are fixed at
classification time: whichever subset of the dispatched operations later
fails, the returned `(uploaded, deleted, overwritten)` triple and the
classified task batch are the same — the results of the dispatched
operations are discarded, so a failing operation is still counted. -/
theorem c10_counts_fixed_at_classification (T : Int)
    (loc : List (String × FsTree)) (store : List (String × CTree))
    (h : nodupTree loc = true) (fails fails' : Op → Bool) :
    (synchronization T fails loc store).counts =
      (synchronization T fails' loc store).counts ∧
    (synchronization T fails loc store).ops =
      (synchronization T fails' loc store).ops := by
  have hw := walk_fails_invariant T loc h fails fails' store store
    (get_info store) (fun p _ => rfl)
  show (levelFinish T fails loc _).counts = (levelFinish T fails' loc _).counts ∧
    (levelFinish T fails loc _).ops = (levelFinish T fails' loc _).ops
  unfold levelFinish
  simp only
  rw [hw.1, hw.2.1, hw.2.2]
  exact ⟨rfl, rfl⟩

/-- Witness for C10: on a concrete tree, a run where every dispatched
operation fails reports the same counts as a run where all succeed. -/
theorem c10_counts_fixed_at_classification_witness :
    (synchronization 10 (fun _ => true) [("a", FsTree.file 5)]
      [("b", CTree.file 3)]).counts =
    (synchronization 10 (fun _ => false) [("a", FsTree.file 5)]
      [("b", CTree.file 3)]).counts :=
  (c10_counts_fixed_at_classification 10 [("a", FsTree.file 5)]
    [("b", CTree.file 3)] (by simp [nodupTree_cons_file, nodupTree_nil,
      hasName, lookupN]) (fun _ => true) (fun _ => false)).1




/-- Witness for the amended C9: the returned-triple equation at a concrete
input. -/
theorem c9_returned_triple_witness :
    (synchronization 10 (fun _ => false) [("a", FsTree.file 5)]
      [("a", CTree.file 3)]).counts =
      (countUploads (synchronization 10 (fun _ => false) [("a", FsTree.file 5)]
        [("a", CTree.file 3)]).ops +
        (sumC ((dirChildren [("a", FsTree.file 5)]).map (fun q =>
          (synchronization 10 (fun _ => false) q.2
            (childStoreOf [("a", CTree.file 3)] q.1)).counts))).1,
       countDeletes (synchronization 10 (fun _ => false) [("a", FsTree.file 5)]
        [("a", CTree.file 3)]).ops +
        (sumC ((dirChildren [("a", FsTree.file 5)]).map (fun q =>
          (synchronization 10 (fun _ => false) q.2
            (childStoreOf [("a", CTree.file 3)] q.1)).counts))).2.1,
       countOverwrites (synchronization 10 (fun _ => false) [("a", FsTree.file 5)]
        [("a", CTree.file 3)]).ops +
        (sumC ((dirChildren [("a", FsTree.file 5)]).map (fun q =>
          (synchronization 10 (fun _ => false) q.2
            (childStoreOf [("a", CTree.file 3)] q.1)).counts))).2.2) :=
  c9_returned_triple 10 (fun _ => false) [("a", FsTree.file 5)]
    [("a", CTree.file 3)] (by decide)




/-! ## Exceptions and the backend status policy (`yandex_cloud.py`)

Python exception classes are modelled by `PyErr`.  The relevant facts of
the class hierarchy: `util.AuthorizationError` and `util.RequestError` are
sibling subclasses of `requests.RequestException` (so neither is caught by
a handler for the other), and neither is an `aiohttp.ClientError`;
`ClientConnectionError` and `ConnectionTimeoutError` are
`aiohttp.ClientError`s. -/
inductive PyErr where
  | requestError      -- util.RequestError
  | authError         -- util.AuthorizationError
  | clientConnError   -- aiohttp.ClientConnectionError
  | connTimeoutError  -- aiohttp.ConnectionTimeoutError
  | otherClientError  -- some other aiohttp.ClientError
  | permissionError   -- PermissionError
  | typeError         -- TypeError
  | timeoutError      -- asyncio.TimeoutError
deriving DecidableEq

/-- `isinstance(e, aiohttp.ClientError)`. -/
def isClientError : PyErr → Bool
  | .clientConnError => true
  | .connTimeoutError => true
  | .otherClientError => true
  | _ => false

namespace YandexCloud

/-- `YandexCloud.create_folder`: reaction to the HTTP status of the folder
creation request.  401 UNAUTHORIZED raises `AuthorizationError`, anything
outside {201 CREATED, 401, 409 CONFLICT} raises `RequestError`, and
201/409 succeed. -/
def create_folder (status : Nat) : Except PyErr Unit :=
  if status = 401 then Except.error PyErr.authError
  else if ¬(status = 201 ∨ status = 401 ∨ status = 409) then
    Except.error PyErr.requestError
  else Except.ok ()

/-- `YandexCloud.delete_file`: reaction to the HTTP status of the delete
request.  Anything outside {204 NO_CONTENT, 202 ACCEPTED} raises
`RequestError`. -/
def delete_file (status : Nat) : Except PyErr Unit :=
  if ¬(status = 204 ∨ status = 202) then Except.error PyErr.requestError
  else Except.ok ()

end YandexCloud

/-- C7 (error_handling).  The acceptable-status policy: folder creation
succeeds exactly on created (201) or conflict (409), raises
`AuthorizationError` exactly on unauthorized (401), and raises
`RequestError` on any other status; deletion succeeds exactly on
no-content (204) or accepted (202) and raises `RequestError` on any other
status. -/
theorem c7_acceptable_status_policy (status : Nat) :
    (YandexCloud.create_folder status = Except.ok () ↔
      status = 201 ∨ status = 409) ∧
    (YandexCloud.create_folder status = Except.error PyErr.authError ↔
      status = 401) ∧
    (YandexCloud.create_folder status = Except.error PyErr.requestError ↔
      ¬(status = 201 ∨ status = 401 ∨ status = 409)) ∧
    (YandexCloud.delete_file status = Except.ok () ↔
      status = 204 ∨ status = 202) ∧
    (YandexCloud.delete_file status = Except.error PyErr.requestError ↔
      ¬(status = 204 ∨ status = 202)) := by
  unfold YandexCloud.create_folder YandexCloud.delete_file
  split_ifs with h1 h2 h3 <;> simp_all




/-! ## Effectful model of the engine (`main.py`): exceptions, cursor, traces

The remote-path cursor (`cloud.name_folder_cloud`) is modelled as a list
of path segments.  A `CloudEnv` is the backend: each capability returns a
value or raises a `PyErr`.  `syncE` returns the wrapped result of
`synchronization` (`Except.ok none` is the `None` that `connect_error`
returns after swallowing a `RequestError`), the cursor value after the
call has returned or its exception has propagated (the code never restores
the cursor while unwinding — line 154 is not in a `finally` block), the
cursors at which directory listings were made, and the operations executed
at the gather points. -/

/-- The `connect_error` decorator of `main.py` around an awaited body:
`RequestError` is caught and logged (the wrapper then returns `None`);
`ClientConnectionError`/`ConnectionTimeoutError` are caught by a handler
that awaits the plain (non-async) function `func_error_logging`, and
awaiting `None` raises `TypeError`, so that handler itself fails with
`TypeError`; every other exception passes through. -/
def connect_error (r : Except PyErr α) : Except PyErr (Option α) :=
  match r with
  | Except.ok a => Except.ok (some a)
  | Except.error PyErr.requestError => Except.ok none
  | Except.error PyErr.clientConnError => Except.error PyErr.typeError
  | Except.error PyErr.connTimeoutError => Except.error PyErr.typeError
  | Except.error e => Except.error e

/-- Drop the value of a wrapped call whose result is not used. -/
def squashE : Except PyErr (Option α) → Except PyErr Unit
  | Except.ok _ => Except.ok ()
  | Except.error e => Except.error e

/-- `create_folder_in_cloud` of `main.py`: the body catches
`aiohttp.ClientError` (logging it; its `sys.exit(1)` arm requires the
error to also be an `AuthorizationError`, which is never an
`aiohttp.ClientError`, so that arm is unreachable); everything else
escapes to the `connect_error` wrapper.  In particular an
`AuthorizationError` is caught by neither handler. -/
def create_folder_in_cloud (r : Except PyErr Unit) : Except PyErr (Option Unit) :=
  connect_error (match r with
    | Except.ok () => Except.ok ()
    | Except.error e =>
      if isClientError e then Except.ok () else Except.error e)

/-- The `cloud_load` task of `main.py` (upload or overwrite): the body
catches `PermissionError` (logging, returning `None`); the result then
passes through `connect_error`. -/
def cloud_load_task (r : Except PyErr Unit) : Except PyErr Unit :=
  squashE (connect_error (match r with
    | Except.ok () => Except.ok true
    | Except.error PyErr.permissionError => Except.ok false
    | Except.error e => Except.error e))

/-- The `delete_file` task of `main.py`: no body handler, just the
`connect_error` wrapper. -/
def delete_file_task (r : Except PyErr Unit) : Except PyErr Unit :=
  squashE (connect_error r)

/-- `asyncio.gather` over the collected tasks: the first raised task
exception propagates (list order stands in for temporal order in this
single-threaded model), otherwise the joint completion succeeds. -/
def gather : List (Except PyErr Unit) → Except PyErr Unit
  | [] => Except.ok ()
  | Except.ok () :: rest => gather rest
  | Except.error e :: _ => Except.error e

/-- The backend capabilities consumed by the engine, as oracles keyed by
the cursor path (and a child name). -/
structure CloudEnv where
  get_info : List String → Except PyErr (List (String × Int))
  is_exists_folder : List String → String → Except PyErr Bool
  create_folder : List String → String → Except PyErr Unit
  load : List String → String → Except PyErr Unit
  reload : List String → String → Except PyErr Unit
  delete : List String → String → Except PyErr Unit

/-- Run one dispatched task against the backend; the cursor is read when
the task runs (at the gather point), exactly as the coroutines of
`main.py` read `cloud.name_folder_cloud` when awaited. -/
def execTask (env : CloudEnv) (cur : List String) : Op → Except PyErr Unit
  | Op.upload n => cloud_load_task (env.load cur n)
  | Op.overwrite n => cloud_load_task (env.reload cur n)
  | Op.delete n => delete_file_task (env.delete cur n)

/-- Result of one wrapped `synchronization` call in the effectful model. -/
structure ERes where
  result : Except PyErr (Option (Nat × Nat × Nat))
  cursor : List String
  trace : List (List String)
  opTrace : List (List String × Op)

/-- Result of the local-children loop in the effectful model. -/
structure WalkERes where
  result : Except PyErr ((Nat × Nat × Nat) × List Op × List (String × Int))
  cursor : List String
  trace : List (List String)
  opTrace : List (List String × Op)

/-- The tail of a `synchronization` frame after its loop: the delete
sweep, the `asyncio.gather` of the collected tasks, and the
`connect_error` wrapping of whatever the body did.  `cur` is the frame's
own cursor; when the loop completed, the cursor was restored to it. -/
def finishE (env : CloudEnv) (loc : List (String × FsTree)) (cur : List String)
    (w : WalkERes) : ERes :=
  match w.result with
  | Except.error e =>
    ⟨connect_error (Except.error e : Except PyErr (Nat × Nat × Nat)),
      w.cursor, cur :: w.trace, w.opTrace⟩
  | Except.ok (counts, tasks, rem) =>
    let dels := (rem.filter (fun p => !isDirName loc p.1)).map
      (fun p => Op.delete p.1)
    let ops := tasks ++ dels
    match gather (ops.map (execTask env cur)) with
    | Except.ok () =>
      ⟨Except.ok (some (addC counts (0, dels.length, 0))), cur, cur :: w.trace,
        w.opTrace ++ ops.map (fun o => (cur, o))⟩
    | Except.error e =>
      ⟨connect_error (Except.error e : Except PyErr (Nat × Nat × Nat)), cur,
        cur :: w.trace, w.opTrace ++ ops.map (fun o => (cur, o))⟩

/-- The loop of `synchronization` in the effectful model.  A directory
child saves the cursor, probes/creates the remote folder, extends the
cursor, runs the whole child frame (inlined; it equals `syncE` below),
unpacks the child's wrapped result — a `None` result raises `TypeError`
at the unpacking assignment, and any exception propagates with the cursor
left as the child set it — and on success restores the cursor before
continuing with the siblings. -/
def walkE (env : CloudEnv) :
    List (String × FsTree) → List String → List (String × Int) → WalkERes
  | [], cur, cf => ⟨Except.ok ((0, 0, 0), [], cf), cur, [], []⟩
  | (n, FsTree.file m) :: rest, cur, cf =>
    (match lookupN n cf with
     | none =>
       let r := walkE env rest cur cf
       ⟨match r.result with
        | Except.ok (c, ops, rem) =>
          Except.ok (addC (1, 0, 0) c, Op.upload n :: ops, rem)
        | Except.error e => Except.error e,
        r.cursor, r.trace, r.opTrace⟩
     | some cm =>
       if cm < m then
         let r := walkE env rest cur (eraseN n cf)
         ⟨match r.result with
          | Except.ok (c, ops, rem) =>
            Except.ok (addC (0, 0, 1) c, Op.overwrite n :: ops, rem)
          | Except.error e => Except.error e,
          r.cursor, r.trace, r.opTrace⟩
       else walkE env rest cur (eraseN n cf))
  | (n, FsTree.dir cs) :: rest, cur, cf =>
    match env.is_exists_folder cur n with
    | Except.error e => ⟨Except.error e, cur, [], []⟩
    | Except.ok ex =>
      match (if ex then Except.ok () else
          squashE (create_folder_in_cloud (env.create_folder cur n))) with
      | Except.error e => ⟨Except.error e, cur, [], []⟩
      | Except.ok () =>
        let child : ERes :=
          match env.get_info (cur ++ [n]) with
          | Except.error e =>
            ⟨connect_error (Except.error e : Except PyErr (Nat × Nat × Nat)),
              cur ++ [n], [cur ++ [n]], []⟩
          | Except.ok cfc => finishE env cs (cur ++ [n]) (walkE env cs (cur ++ [n]) cfc)
        match child.result with
        | Except.error e => ⟨Except.error e, child.cursor, child.trace, child.opTrace⟩
        | Except.ok none =>
          ⟨Except.error PyErr.typeError, child.cursor, child.trace, child.opTrace⟩
        | Except.ok (some cc) =>
          let r := walkE env rest cur cf
          ⟨match r.result with
           | Except.ok (c, ops, rem) => Except.ok (addC cc c, ops, rem)
           | Except.error e => Except.error e,
           r.cursor, child.trace ++ r.trace, child.opTrace ++ r.opTrace⟩
  termination_by loc _ _ => sizeOf loc
  decreasing_by
    all_goals simp_wf
    all_goals omega

/-- One wrapped `synchronization(path_on_pc, cloud)` call in the effectful
model: list the cloud directory at the cursor, run the loop, finish the
frame. -/
def syncE (env : CloudEnv) (loc : List (String × FsTree)) (cur : List String) :
    ERes :=
  match env.get_info cur with
  | Except.error e =>
    ⟨connect_error (Except.error e : Except PyErr (Nat × Nat × Nat)), cur,
      [cur], []⟩
  | Except.ok cf => finishE env loc cur (walkE env loc cur cf)

/-- The inlined child frame in `walkE`'s directory branch is exactly
`syncE` of the child. -/
theorem walkE_dir (env : CloudEnv) (n : String) (cs rest : List (String × FsTree))
    (cur : List String) (cf : List (String × Int)) :
    walkE env ((n, FsTree.dir cs) :: rest) cur cf =
      match env.is_exists_folder cur n with
      | Except.error e => ⟨Except.error e, cur, [], []⟩
      | Except.ok ex =>
        match (if ex then Except.ok () else
            squashE (create_folder_in_cloud (env.create_folder cur n))) with
        | Except.error e => ⟨Except.error e, cur, [], []⟩
        | Except.ok () =>
          match (syncE env cs (cur ++ [n])).result with
          | Except.error e =>
            ⟨Except.error e, (syncE env cs (cur ++ [n])).cursor,
              (syncE env cs (cur ++ [n])).trace, (syncE env cs (cur ++ [n])).opTrace⟩
          | Except.ok none =>
            ⟨Except.error PyErr.typeError, (syncE env cs (cur ++ [n])).cursor,
              (syncE env cs (cur ++ [n])).trace, (syncE env cs (cur ++ [n])).opTrace⟩
          | Except.ok (some cc) =>
            ⟨match (walkE env rest cur cf).result with
             | Except.ok (c, ops, rem) => Except.ok (addC cc c, ops, rem)
             | Except.error e => Except.error e,
             (walkE env rest cur cf).cursor,
             (syncE env cs (cur ++ [n])).trace ++ (walkE env rest cur cf).trace,
             (syncE env cs (cur ++ [n])).opTrace ++ (walkE env rest cur cf).opTrace⟩ := by
  rw [walkE]
  rfl




/-! ## Concrete environments for the cursor and error claims -/

/-- A backend on which everything succeeds except the listing of any
directory other than the root `["root"]`, which is rejected with a
`RequestError` (e.g. the backend answers a non-200 status). -/
def envC : CloudEnv :=
  ⟨fun c => if c = ["root"] then Except.ok [] else Except.error PyErr.requestError,
   fun _ _ => Except.ok true,
   fun _ _ => Except.ok (),
   fun _ _ => Except.ok (),
   fun _ _ => Except.ok (),
   fun _ _ => Except.ok ()⟩

/-- A backend on which everything succeeds; every listing is empty and
every folder probe answers true. -/
def envS : CloudEnv :=
  ⟨fun _ => Except.ok [],
   fun _ _ => Except.ok true,
   fun _ _ => Except.ok (),
   fun _ _ => Except.ok (),
   fun _ _ => Except.ok (),
   fun _ _ => Except.ok ()⟩

/-- A backend whose folder creation is rejected as unauthorized; folder
probes answer false so creation is attempted. -/
def envAuth : CloudEnv :=
  ⟨fun _ => Except.ok [],
   fun _ _ => Except.ok false,
   fun _ _ => Except.error PyErr.authError,
   fun _ _ => Except.ok (),
   fun _ _ => Except.ok (),
   fun _ _ => Except.ok ()⟩




/-! ## Claim C4: the remote-path cursor -/

/-- When the loop over the local children completes without an exception,
the cursor has been restored to the frame's own value. -/
theorem walkE_cursor_ok (env : CloudEnv) :
    ∀ (loc : List (String × FsTree)) (cur : List String)
      (cf : List (String × Int)) (v : (Nat × Nat × Nat) × List Op × List (String × Int)),
      (walkE env loc cur cf).result = Except.ok v →
      (walkE env loc cur cf).cursor = cur := by
  intro loc
  induction loc with
  | nil =>
    intro cur cf v _
    rw [walkE]
  | cons p rest ih =>
    intro cur cf v h
    cases p with
    | mk n t =>
      cases t with
      | file m =>
        rw [walkE] at h ⊢
        cases hcf : lookupN n cf with
        | none =>
          simp only [hcf] at h ⊢
          cases hr : (walkE env rest cur cf).result with
          | error e =>
            rw [hr] at h
            simp at h
          | ok v2 => exact ih cur cf v2 hr
        | some cm =>
          simp only [hcf] at h ⊢
          by_cases hlt : cm < m
          · simp only [if_pos hlt] at h ⊢
            cases hr : (walkE env rest cur (eraseN n cf)).result with
            | error e =>
              rw [hr] at h
              simp at h
            | ok v2 => exact ih cur (eraseN n cf) v2 hr
          · simp only [if_neg hlt] at h ⊢
            exact ih cur (eraseN n cf) v h
      | dir cs =>
        rw [walkE_dir] at h ⊢
        cases he : env.is_exists_folder cur n with
        | error e =>
          simp only [he] at h
          simp at h
        | ok ex =>
          simp only [he] at h ⊢
          cases hc : (if ex then Except.ok () else
              squashE (create_folder_in_cloud (env.create_folder cur n))) with
          | error e =>
            simp only [hc] at h
            simp at h
          | ok u =>
            cases u
            simp only [hc] at h ⊢
            cases hchild : (syncE env cs (cur ++ [n])).result with
            | error e =>
              simp only [hchild] at h
              simp at h
            | ok o =>
              cases o with
              | none =>
                simp only [hchild] at h
                simp at h
              | some cc =>
                simp only [hchild] at h ⊢
                cases hr : (walkE env rest cur cf).result with
                | error e =>
                  rw [hr] at h
                  simp at h
                | ok v2 => exact ih cur cf v2 hr

theorem syncE_cursor_of_ok (env : CloudEnv) (loc : List (String × FsTree))
    (cur : List String) (c : Nat × Nat × Nat)
    (h : (syncE env loc cur).result = Except.ok (some c)) :
    (syncE env loc cur).cursor = cur := by
  unfold syncE at h ⊢
  cases hg : env.get_info cur with
  | error e =>
    simp only [hg] at h
    cases e <;> simp [connect_error] at h
  | ok cf =>
    simp only [hg] at h ⊢
    unfold finishE at h ⊢
    cases hw : (walkE env loc cur cf).result with
    | error e =>
      simp only [hw] at h
      cases e <;> simp [connect_error] at h
    | ok v =>
      obtain ⟨counts, tasks, rem⟩ := v
      simp only [hw] at h ⊢
      cases hgath : gather (((tasks ++ (rem.filter (fun p => !isDirName loc p.1)).map
          (fun p => Op.delete p.1)).map (execTask env cur))) with
      | ok u =>
        cases u
        simp only [hgath]
      | error e =>
        simp only [hgath]

/-- C4 counterexample.  With a backend whose listing of the child folder
fails with a `RequestError`, the recursion into local child `B` fails, the
whole call fails (with the `TypeError` from unpacking the child's `None`
result), and the cursor is left at `["root", "B"]` — it is not restored to
the parent's value `["root"]`, contradicting restoration "whether that
recursion succeeds or fails". -/
theorem c4_counterexample :
    (syncE envC [("B", FsTree.dir [])] ["root"]).result
        = Except.error PyErr.typeError ∧
    (syncE envC [("B", FsTree.dir [])] ["root"]).cursor = ["root", "B"] ∧
    (["root", "B"] : List String) ≠ ["root"] := by
  refine ⟨?_, ?_, by decide⟩
  · simp [syncE, walkE, finishE, envC, connect_error, squashE,
      create_folder_in_cloud, isClientError, gather, execTask, lookupN,
      isDirName, addC]
  · simp [syncE, walkE, finishE, envC, connect_error, squashE,
      create_folder_in_cloud, isClientError, gather, execTask, lookupN,
      isDirName, addC]

/-- C4 amended (frame_effect).  When a frame returns successfully the
cursor is restored to the caller's value (so for local siblings `A/B` and
`A/C`, the cursor used while diffing `A/C` is `.../A/C`, never
`.../A/B/C` — witnessed by the listing trace on the success path); but
when a child recursion fails, the exception propagates without the
restoration at line 154 running, leaving the cursor at the child's value. -/
theorem c4_cursor_restored_on_success :
    (∀ (env : CloudEnv) (loc : List (String × FsTree)) (cur : List String)
      (c : Nat × Nat × Nat),
      (syncE env loc cur).result = Except.ok (some c) →
      (syncE env loc cur).cursor = cur) ∧
    (syncE envS [("B", FsTree.dir []), ("C", FsTree.dir [])] ["A"]).trace
      = [["A"], ["A", "B"], ["A", "C"]] := by
  refine ⟨syncE_cursor_of_ok, ?_⟩
  simp [syncE, walkE, finishE, envS, connect_error, squashE,
    create_folder_in_cloud, isClientError, gather, execTask, lookupN,
    isDirName, addC]

/-- Witness for the amended C4: a concrete successful frame ends with the
cursor restored. -/
theorem c4_cursor_restored_on_success_witness :
    (syncE envS [("B", FsTree.dir [])] ["A"]).cursor = ["A"] := by
  refine c4_cursor_restored_on_success.1 envS [("B", FsTree.dir [])] ["A"]
    (0, 0, 0) ?_
  simp [syncE, walkE, finishE, envS, connect_error, squashE,
    create_folder_in_cloud, isClientError, gather, execTask, lookupN,
    isDirName, addC]




/-! ## Claims C5 and C6: the error taxonomy -/

/-- What one iteration of `main`'s loop does with the engine's outcome. -/
inductive MainOutcome where
  | nextPass
  | die (e : PyErr)
deriving DecidableEq

/-- `main` unpacks the engine's wrapped result (a `None` raises
`TypeError` at the assignment) inside a `try` that catches only
`asyncio.TimeoutError` and the builtin `ConnectionError`; no modelled
exception kind is a builtin `ConnectionError`, so everything except
`asyncio.TimeoutError` escapes `main` and terminates the process with a
non-zero status. -/
def mainStep : Except PyErr (Option (Nat × Nat × Nat)) → MainOutcome
  | Except.ok (some _) => MainOutcome.nextPass
  | Except.ok none => MainOutcome.die PyErr.typeError
  | Except.error e =>
    if e = PyErr.timeoutError then MainOutcome.nextPass else MainOutcome.die e

/-- C5 counterexample.  `AuthorizationFailure` is not the sole error kind
that propagates out of the engine: a mere `RequestError` from a child
directory's listing escapes the engine as a `TypeError` (the child's
wrapper returns `None`, whose unpacking raises), which also terminates the
process. -/
theorem c5_counterexample :
    (syncE envC [("B", FsTree.dir [])] ["root"]).result
        = Except.error PyErr.typeError ∧
    PyErr.typeError ≠ PyErr.authError ∧
    mainStep (syncE envC [("B", FsTree.dir [])] ["root"]).result
        = MainOutcome.die PyErr.typeError := by
  have h : (syncE envC [("B", FsTree.dir [])] ["root"]).result
      = Except.error PyErr.typeError := by
    simp [syncE, walkE, finishE, envC, connect_error, squashE,
      create_folder_in_cloud, isClientError, gather, execTask, lookupN,
      isDirName, addC]
  refine ⟨h, by decide, ?_⟩
  rw [h]
  decide

/-- C5 amended (error_handling).  An `AuthorizationFailure` raised by a
backend call is caught by no handler in the engine (it is neither a
`RequestError` nor an `aiohttp.ClientError`): it propagates out of the
engine, halts further recursion (no further directory is listed), is not
caught by `main` (no further pass is scheduled), and terminates the
process; during startup folder creation it likewise escapes
`create_folder_in_cloud`.  It is however not the *sole* kind that escapes
the engine: a failed child listing escapes as a `TypeError`. -/
theorem c5_auth_failure_fatal :
    (syncE envAuth [("B", FsTree.dir []), ("C", FsTree.dir [])] ["root"]).result
        = Except.error PyErr.authError ∧
    (syncE envAuth [("B", FsTree.dir []), ("C", FsTree.dir [])] ["root"]).trace
        = [["root"]] ∧
    mainStep (syncE envAuth [("B", FsTree.dir []), ("C", FsTree.dir [])]
        ["root"]).result = MainOutcome.die PyErr.authError ∧
    squashE (create_folder_in_cloud (Except.error PyErr.authError))
        = Except.error PyErr.authError := by
  have h : (syncE envAuth [("B", FsTree.dir []), ("C", FsTree.dir [])]
      ["root"]).result = Except.error PyErr.authError := by
    simp [syncE, walkE, finishE, envAuth, connect_error, squashE,
      create_folder_in_cloud, isClientError, gather, execTask, lookupN,
      isDirName, addC]
  refine ⟨h, ?_, ?_, rfl⟩
  · simp [syncE, walkE, finishE, envAuth, connect_error, squashE,
      create_folder_in_cloud, isClientError, gather, execTask, lookupN,
      isDirName, addC]
  · rw [h]
    decide

/-- C6 counterexample.  A backend rejection (`RequestError`) of a child
directory's listing — an error that is not an `AuthorizationFailure` — is
not confined to the affected files: the wrapper turns it into a `None`
return, the parent's unpacking raises `TypeError`, and the whole pass is
aborted instead of continuing to completion. -/
theorem c6_counterexample :
    envC.get_info ["root", "B"] = Except.error PyErr.requestError ∧
    PyErr.requestError ≠ PyErr.authError ∧
    (syncE envC [("B", FsTree.dir [])] ["root"]).result
        = Except.error PyErr.typeError := by
  refine ⟨by simp [envC], by decide, ?_⟩
  simp [syncE, walkE, finishE, envC, connect_error, squashE,
    create_folder_in_cloud, isClientError, gather, execTask, lookupN,
    isDirName, addC]




/-- The same backend with every file-level operation forced to succeed. -/
def withOkOps (env : CloudEnv) : CloudEnv :=
  ⟨env.get_info, env.is_exists_folder, env.create_folder,
   fun _ _ => Except.ok (), fun _ _ => Except.ok (), fun _ _ => Except.ok ()⟩

theorem gather_all_ok :
    ∀ l : List (Except PyErr Unit), (∀ r ∈ l, r = Except.ok ()) →
      gather l = Except.ok () := by
  intro l
  induction l with
  | nil => intro _; rfl
  | cons r rest ih =>
    intro h
    rw [h r (List.mem_cons_self _ _)]
    show gather (Except.ok () :: rest) = Except.ok ()
    rw [gather]
    exact ih (fun r2 hr2 => h r2 (List.mem_cons_of_mem _ hr2))

theorem execTask_withOkOps (env : CloudEnv) (cur : List String) (op : Op) :
    execTask (withOkOps env) cur op = Except.ok () := by
  cases op <;> rfl

theorem withOkOps_get_info (env : CloudEnv) :
    (withOkOps env).get_info = env.get_info := rfl

theorem withOkOps_is_exists_folder (env : CloudEnv) :
    (withOkOps env).is_exists_folder = env.is_exists_folder := rfl

theorem withOkOps_create_folder (env : CloudEnv) :
    (withOkOps env).create_folder = env.create_folder := rfl

/-- Two backends whose gathered batches behave identically produce
identical frame tails. -/
theorem finishE_env_eq (env env2 : CloudEnv) (loc : List (String × FsTree))
    (cur : List String) (w : WalkERes)
    (hsame : ∀ ops : List Op,
      gather (ops.map (execTask env cur)) = gather (ops.map (execTask env2 cur))) :
    finishE env loc cur w = finishE env2 loc cur w := by
  unfold finishE
  cases hw : w.result with
  | error e => rfl
  | ok v =>
    obtain ⟨c, tasks, rem⟩ := v
    simp only
    rw [hsame]

theorem walkE_benign_eq (env : CloudEnv)
    (hexec : ∀ (cur : List String) (op : Op),
      execTask env cur op = Except.ok ()) :
    ∀ loc : List (String × FsTree), ∀ (cur : List String) (cf : List (String × Int)),
      walkE env loc cur cf = walkE (withOkOps env) loc cur cf := by
  have hsame : ∀ (cur : List String) (ops : List Op),
      gather (ops.map (execTask env cur)) =
        gather (ops.map (execTask (withOkOps env) cur)) := by
    intro cur ops
    rw [gather_all_ok _ (fun r hr => by
      obtain ⟨op, _, he⟩ := List.mem_map.mp hr
      rw [← he, hexec]),
      gather_all_ok _ (fun r hr => by
      obtain ⟨op, _, he⟩ := List.mem_map.mp hr
      rw [← he, execTask_withOkOps])]
  refine sizeOf_ind ?_
  intro loc IH cur cf
  cases loc with
  | nil =>
    rw [walkE, walkE]
  | cons p rest =>
    cases p with
    | mk n t =>
      cases t with
      | file m =>
        rw [walkE, walkE]
        cases hcf : lookupN n cf with
        | none =>
          simp only [hcf]
          rw [IH rest (sizeOf_rest_lt _ _) cur cf]
        | some cm =>
          simp only [hcf]
          by_cases hlt : cm < m
          · simp only [if_pos hlt]
            rw [IH rest (sizeOf_rest_lt _ _) cur (eraseN n cf)]
          · simp only [if_neg hlt]
            exact IH rest (sizeOf_rest_lt _ _) cur (eraseN n cf)
      | dir cs =>
        have hchild : syncE env cs (cur ++ [n]) =
            syncE (withOkOps env) cs (cur ++ [n]) := by
          unfold syncE
          rw [withOkOps_get_info]
          cases hg : env.get_info (cur ++ [n]) with
          | error e => rfl
          | ok cf2 =>
            show finishE env cs (cur ++ [n]) (walkE env cs (cur ++ [n]) cf2) =
              finishE (withOkOps env) cs (cur ++ [n])
                (walkE (withOkOps env) cs (cur ++ [n]) cf2)
            rw [IH cs (sizeOf_children_lt n cs rest) (cur ++ [n]) cf2]
            exact finishE_env_eq env (withOkOps env) cs (cur ++ [n]) _
              (hsame (cur ++ [n]))
        rw [walkE_dir, walkE_dir, withOkOps_is_exists_folder,
          withOkOps_create_folder, ← hchild]
        cases he : env.is_exists_folder cur n with
        | error e => rfl
        | ok ex =>
          simp only
          cases hc : (if ex then Except.ok () else
              squashE (create_folder_in_cloud (env.create_folder cur n))) with
          | error e => rfl
          | ok u =>
            cases u
            simp only
            cases hcr : (syncE env cs (cur ++ [n])).result with
            | error e => rfl
            | ok o =>
              cases o with
              | none => rfl
              | some cc =>
                simp only
                rw [IH rest (sizeOf_rest_lt _ _) cur cf]




theorem walkE_nil (env : CloudEnv) (cur : List String) (cf : List (String × Int)) :
    walkE env [] cur cf = ⟨Except.ok ((0, 0, 0), [], cf), cur, [], []⟩ := by
  rw [walkE]

theorem walkE_file_none {n : String} {cf : List (String × Int)} (env : CloudEnv)
    (m : Int) (rest : List (String × FsTree)) (cur : List String)
    (h : lookupN n cf = none) :
    walkE env ((n, FsTree.file m) :: rest) cur cf =
      ⟨match (walkE env rest cur cf).result with
       | Except.ok (c, ops, rem) =>
         Except.ok (addC (1, 0, 0) c, Op.upload n :: ops, rem)
       | Except.error e => Except.error e,
       (walkE env rest cur cf).cursor, (walkE env rest cur cf).trace,
       (walkE env rest cur cf).opTrace⟩ := by
  rw [walkE]
  simp [h]

theorem walkE_file_some_lt {n : String} {cf : List (String × Int)} {cm : Int}
    (env : CloudEnv) {m : Int} (rest : List (String × FsTree)) (cur : List String)
    (h : lookupN n cf = some cm) (hlt : cm < m) :
    walkE env ((n, FsTree.file m) :: rest) cur cf =
      ⟨match (walkE env rest cur (eraseN n cf)).result with
       | Except.ok (c, ops, rem) =>
         Except.ok (addC (0, 0, 1) c, Op.overwrite n :: ops, rem)
       | Except.error e => Except.error e,
       (walkE env rest cur (eraseN n cf)).cursor,
       (walkE env rest cur (eraseN n cf)).trace,
       (walkE env rest cur (eraseN n cf)).opTrace⟩ := by
  rw [walkE]
  simp [h, hlt]

theorem walkE_file_some_ge {n : String} {cf : List (String × Int)} {cm : Int}
    (env : CloudEnv) {m : Int} (rest : List (String × FsTree)) (cur : List String)
    (h : lookupN n cf = some cm) (hge : ¬cm < m) :
    walkE env ((n, FsTree.file m) :: rest) cur cf =
      walkE env rest cur (eraseN n cf) := by
  rw [walkE]
  simp [h, hge]

/-- With benign backends (listings and probes answer, folder creation is
swallowed or succeeds, and every dispatched task's wrapped result is a
success) every frame of the pass completes. -/
theorem walkE_syncE_complete (env : CloudEnv)
    (hlist : ∀ p, ∃ v, env.get_info p = Except.ok v)
    (hex : ∀ p n, ∃ b, env.is_exists_folder p n = Except.ok b)
    (hcreate : ∀ p n, squashE (create_folder_in_cloud (env.create_folder p n))
      = Except.ok ())
    (hexec : ∀ (cur : List String) (op : Op), execTask env cur op = Except.ok ()) :
    ∀ loc : List (String × FsTree),
      (∀ (cur : List String) (cf : List (String × Int)),
        ∃ v, (walkE env loc cur cf).result = Except.ok v) ∧
      (∀ cur : List String, ∃ c, (syncE env loc cur).result
        = Except.ok (some c)) := by
  refine sizeOf_ind ?_
  intro loc IH
  have hwalk : ∀ (cur : List String) (cf : List (String × Int)),
      ∃ v, (walkE env loc cur cf).result = Except.ok v := by
    intro cur cf
    cases loc with
    | nil =>
      rw [walkE_nil]
      exact ⟨_, rfl⟩
    | cons p rest =>
      cases p with
      | mk n t =>
        cases t with
        | file m =>
          cases hcf : lookupN n cf with
          | none =>
            rw [walkE_file_none env m rest cur hcf]
            obtain ⟨⟨c, ops, rem⟩, hv⟩ := (IH rest (sizeOf_rest_lt _ _)).1 cur cf
            show ∃ v, (match (walkE env rest cur cf).result with
              | Except.ok (c, ops, rem) =>
                Except.ok (addC (1, 0, 0) c, Op.upload n :: ops, rem)
              | Except.error e => Except.error e) = Except.ok v
            rw [hv]
            exact ⟨_, rfl⟩
          | some cm =>
            by_cases hlt : cm < m
            · rw [walkE_file_some_lt env rest cur hcf hlt]
              obtain ⟨⟨c, ops, rem⟩, hv⟩ :=
                (IH rest (sizeOf_rest_lt _ _)).1 cur (eraseN n cf)
              show ∃ v, (match (walkE env rest cur (eraseN n cf)).result with
                | Except.ok (c, ops, rem) =>
                  Except.ok (addC (0, 0, 1) c, Op.overwrite n :: ops, rem)
                | Except.error e => Except.error e) = Except.ok v
              rw [hv]
              exact ⟨_, rfl⟩
            · rw [walkE_file_some_ge env rest cur hcf hlt]
              exact (IH rest (sizeOf_rest_lt _ _)).1 cur (eraseN n cf)
        | dir cs =>
          rw [walkE_dir]
          obtain ⟨b, hb⟩ := hex cur n
          rw [hb]
          obtain ⟨cc, hcc⟩ := (IH cs (sizeOf_children_lt n cs rest)).2 (cur ++ [n])
          obtain ⟨⟨c, ops, rem⟩, hv⟩ := (IH rest (sizeOf_rest_lt _ _)).1 cur cf
          cases b with
          | true =>
            rw [hcc, hv]
            exact ⟨_, rfl⟩
          | false =>
            rw [hcreate cur n, hcc, hv]
            exact ⟨_, rfl⟩
  refine ⟨hwalk, ?_⟩
  intro cur
  obtain ⟨cf0, hgi⟩ := hlist cur
  obtain ⟨⟨c, tasks, rem⟩, hw⟩ := hwalk cur cf0
  unfold syncE
  rw [hgi]
  show ∃ c2, (finishE env loc cur (walkE env loc cur cf0)).result
    = Except.ok (some c2)
  unfold finishE
  simp only [hw]
  rw [gather_all_ok _ (fun r hr => by
    obtain ⟨op, _, he⟩ := List.mem_map.mp hr
    rw [← he, hexec])]
  exact ⟨_, rfl⟩




/-- C6 amended (error_handling).  Per-file dispatched-operation failures
of the recoverable kinds (backend `RequestError`, local permission
failure on upload/overwrite) are swallowed at the task boundary: the pass
behaves exactly as if those operations had succeeded — same wrapped
result, counters, cursor, listing trace, and executed-operation trace, so
each operation is attempted exactly once and never retried in-pass; and
with benign listings/probes/folder creation the pass runs to completion.
(It is not true of every non-authorization error: a listing failure
aborts the pass, see the counterexample.) -/
theorem c6_benign_failures_isolated (env : CloudEnv)
    (hload : ∀ p n, cloud_load_task (env.load p n) = Except.ok ())
    (hreload : ∀ p n, cloud_load_task (env.reload p n) = Except.ok ())
    (hdelete : ∀ p n, delete_file_task (env.delete p n) = Except.ok ()) :
    (∀ (loc : List (String × FsTree)) (cur : List String),
      syncE env loc cur = syncE (withOkOps env) loc cur) ∧
    ((∀ p, ∃ v, env.get_info p = Except.ok v) →
     (∀ p n, ∃ b, env.is_exists_folder p n = Except.ok b) →
     (∀ p n, squashE (create_folder_in_cloud (env.create_folder p n))
        = Except.ok ()) →
     ∀ (loc : List (String × FsTree)) (cur : List String),
       ∃ c, (syncE env loc cur).result = Except.ok (some c)) := by
  have hexec : ∀ (cur : List String) (op : Op),
      execTask env cur op = Except.ok () := by
    intro cur op
    cases op with
    | upload n => exact hload cur n
    | overwrite n => exact hreload cur n
    | delete n => exact hdelete cur n
  have hsame : ∀ (cur : List String) (ops : List Op),
      gather (ops.map (execTask env cur)) =
        gather (ops.map (execTask (withOkOps env) cur)) := by
    intro cur ops
    rw [gather_all_ok _ (fun r hr => by
      obtain ⟨op, _, he⟩ := List.mem_map.mp hr
      rw [← he, hexec]),
      gather_all_ok _ (fun r hr => by
      obtain ⟨op, _, he⟩ := List.mem_map.mp hr
      rw [← he, execTask_withOkOps])]
  constructor
  · intro loc cur
    unfold syncE
    rw [withOkOps_get_info]
    cases hg : env.get_info cur with
    | error e => rfl
    | ok cf =>
      show finishE env loc cur (walkE env loc cur cf) =
        finishE (withOkOps env) loc cur (walkE (withOkOps env) loc cur cf)
      rw [walkE_benign_eq env hexec loc cur cf]
      exact finishE_env_eq env (withOkOps env) loc cur _ (hsame cur)
  · intro hlist hex hcreate loc cur
    exact (walkE_syncE_complete env hlist hex hcreate hexec loc).2 cur

/-- A backend on which every upload is rejected with a `RequestError` but
everything else succeeds; every listing is empty. -/
def envB : CloudEnv :=
  ⟨fun _ => Except.ok [],
   fun _ _ => Except.ok true,
   fun _ _ => Except.ok (),
   fun _ _ => Except.error PyErr.requestError,
   fun _ _ => Except.ok (),
   fun _ _ => Except.ok ()⟩

/-- Witness for the amended C6: with uploads failing recoverably, the pass
is observationally identical to the all-success pass, and it completes. -/
theorem c6_benign_failures_isolated_witness :
    syncE envB [("a", FsTree.file 3)] ["root"] =
      syncE (withOkOps envB) [("a", FsTree.file 3)] ["root"] ∧
    ∃ c, (syncE envB [("a", FsTree.file 3)] ["root"]).result
      = Except.ok (some c) :=
  ⟨(c6_benign_failures_isolated envB (fun _ _ => rfl) (fun _ _ => rfl)
      (fun _ _ => rfl)).1 [("a", FsTree.file 3)] ["root"],
   (c6_benign_failures_isolated envB (fun _ _ => rfl) (fun _ _ => rfl)
      (fun _ _ => rfl)).2 (fun _ => ⟨[], rfl⟩) (fun _ _ => ⟨true, rfl⟩)
      (fun _ _ => rfl) [("a", FsTree.file 3)] ["root"]⟩




/-! ## Claim C3: idempotence of a completed pass -/

/-- All dispatched operations succeed (the pass completes). -/
def noFail : Op → Bool := fun _ => false

/-- Well-formedness of a (local tree, cloud store) pair, as the running
program maintains it: distinct names at every level on both sides, no
local file sharing its name with a cloud folder or local directory with a
cloud file, and recursively so for every local directory (against its
cloud folder's children, or an empty listing when the folder is absent). -/
def wf : List (String × FsTree) → List (String × CTree) → Bool
  | [], store => nodupKeys store
  | (n, FsTree.file _) :: rest, store =>
    (match lookupN n store with
     | some (CTree.dir _ _) => false
     | _ => true) && !hasName rest n && wf rest store
  | (n, FsTree.dir cs) :: rest, store =>
    (match lookupN n store with
     | some (CTree.file _) => false
     | some (CTree.dir _ cs') => wf cs cs'
     | none => wf cs []) && !hasName rest n && wf rest store
  termination_by loc _ => sizeOf loc
  decreasing_by
    all_goals simp_wf
    all_goals omega

/-- Every modification timestamp in the local tree is at most `T` (the
server clock is not behind any local file). -/
def mtimesBelow (T : Int) : List (String × FsTree) → Bool
  | [] => true
  | (_, FsTree.file m) :: rest => decide (m ≤ T) && mtimesBelow T rest
  | (_, FsTree.dir cs) :: rest => mtimesBelow T cs && mtimesBelow T rest
  termination_by loc => sizeOf loc
  decreasing_by
    all_goals simp_wf
    all_goals omega

/-- `syncedAux loc0 l store`: every entry of `l` (a suffix of the level's
children `loc0`) is mirrored in `store` — a file by a remote file at least
as new, a directory by a remote folder recursively synced — and, checked
once at the end, every store entry bears a local name and both sides have
distinct names. -/
def syncedAux : List (String × FsTree) → List (String × FsTree) →
    List (String × CTree) → Bool
  | loc0, [], store =>
    store.all (fun q => hasName loc0 q.1) && nodupKeys store && nodupKeys loc0
  | loc0, (n, FsTree.file m) :: rest, store =>
    (match lookupN n store with
     | some (CTree.file cm) => decide (m ≤ cm)
     | _ => false) && syncedAux loc0 rest store
  | loc0, (n, FsTree.dir cs) :: rest, store =>
    (match lookupN n store with
     | some (CTree.dir _ cs') => syncedAux cs cs cs'
     | _ => false) && syncedAux loc0 rest store
  termination_by _ l _ => sizeOf l
  decreasing_by
    all_goals simp_wf
    all_goals omega

/-- The cloud store mirrors the local directory: after a completed pass
with no intervening change, nothing is classified any more. -/
def synced (loc : List (String × FsTree)) (store : List (String × CTree)) :
    Bool :=
  syncedAux loc loc store

theorem wf_nil {store : List (String × CTree)} (h : wf [] store = true) :
    nodupKeys store = true := by
  rw [wf] at h
  exact h

theorem wf_cons_file {n : String} {m : Int} {rest : List (String × FsTree)}
    {store : List (String × CTree)}
    (h : wf ((n, FsTree.file m) :: rest) store = true) :
    (∀ fm cs, lookupN n store ≠ some (CTree.dir fm cs)) ∧
      hasName rest n = false ∧ wf rest store = true := by
  rw [wf] at h
  simp only [Bool.and_eq_true, Bool.not_eq_true'] at h
  refine ⟨?_, h.1.2, h.2⟩
  intro fm cs he
  rw [he] at h
  simp at h

theorem wf_cons_dir {n : String} {cs rest : List (String × FsTree)}
    {store : List (String × CTree)}
    (h : wf ((n, FsTree.dir cs) :: rest) store = true) :
    wf cs (childStoreOf store n) = true ∧
      (∀ fm, lookupN n store ≠ some (CTree.file fm)) ∧
      hasName rest n = false ∧ wf rest store = true := by
  rw [wf] at h
  simp only [Bool.and_eq_true, Bool.not_eq_true'] at h
  refine ⟨?_, ?_, h.1.2, h.2⟩
  · unfold childStoreOf
    cases hl : lookupN n store with
    | none =>
      rw [hl] at h
      exact h.1.1
    | some t =>
      cases t with
      | file fm =>
        rw [hl] at h
        simp at h
      | dir fm cs' =>
        rw [hl] at h
        exact h.1.1
  · intro fm he
    rw [he] at h
    simp at h

theorem wf_nodup_store {loc : List (String × FsTree)} :
    ∀ {store : List (String × CTree)}, wf loc store = true →
      nodupKeys store = true := by
  induction loc with
  | nil => exact fun h => wf_nil h
  | cons p rest ih =>
    intro store h
    cases p with
    | mk n t =>
      cases t with
      | file m => exact ih (wf_cons_file h).2.2
      | dir cs => exact ih (wf_cons_dir h).2.2.2

theorem wf_nodup_loc {loc : List (String × FsTree)} :
    ∀ {store : List (String × CTree)}, wf loc store = true →
      nodupKeys loc = true := by
  induction loc with
  | nil => intro store _; rfl
  | cons p rest ih =>
    intro store h
    cases p with
    | mk n t =>
      cases t with
      | file m =>
        obtain ⟨_, h2, h3⟩ := wf_cons_file h
        simp only [nodupKeys, Bool.and_eq_true, Bool.not_eq_true']
        exact ⟨h2, ih h3⟩
      | dir cs =>
        obtain ⟨_, _, h2, h3⟩ := wf_cons_dir h
        simp only [nodupKeys, Bool.and_eq_true, Bool.not_eq_true']
        exact ⟨h2, ih h3⟩

theorem mtimesBelow_cons_file {T m : Int} {n : String}
    {rest : List (String × FsTree)}
    (h : mtimesBelow T ((n, FsTree.file m) :: rest) = true) :
    m ≤ T ∧ mtimesBelow T rest = true := by
  rw [mtimesBelow] at h
  simp only [Bool.and_eq_true, decide_eq_true_eq] at h
  exact h

theorem mtimesBelow_cons_dir {T : Int} {n : String}
    {cs rest : List (String × FsTree)}
    (h : mtimesBelow T ((n, FsTree.dir cs) :: rest) = true) :
    mtimesBelow T cs = true ∧ mtimesBelow T rest = true := by
  rw [mtimesBelow] at h
  simp only [Bool.and_eq_true] at h
  exact h

theorem mtimesBelow_mem_file {T m : Int} {n : String}
    {loc : List (String × FsTree)} (h : mtimesBelow T loc = true)
    (hm : (n, FsTree.file m) ∈ loc) : m ≤ T := by
  induction loc with
  | nil => simp at hm
  | cons p rest ih =>
    rcases List.mem_cons.mp hm with hh | hh
    · cases p with
      | mk n2 t =>
        injection hh with hn ht
        subst hn
        subst ht
        exact (mtimesBelow_cons_file h).1
    · cases p with
      | mk n2 t =>
        cases t with
        | file m2 => exact ih (mtimesBelow_cons_file h).2 hh
        | dir cs => exact ih (mtimesBelow_cons_dir h).2 hh

theorem mtimesBelow_mem_dir {T : Int} {n : String}
    {cs loc : List (String × FsTree)} (h : mtimesBelow T loc = true)
    (hm : (n, FsTree.dir cs) ∈ loc) : mtimesBelow T cs = true := by
  induction loc with
  | nil => simp at hm
  | cons p rest ih =>
    rcases List.mem_cons.mp hm with hh | hh
    · cases p with
      | mk n2 t =>
        injection hh with hn ht
        subst hn
        subst ht
        exact (mtimesBelow_cons_dir h).1
    · cases p with
      | mk n2 t =>
        cases t with
        | file m2 => exact ih (mtimesBelow_cons_file h).2 hh
        | dir cs2 => exact ih (mtimesBelow_cons_dir h).2 hh

theorem wf_mem_file {n : String} {m : Int} {loc : List (String × FsTree)} :
    ∀ {store : List (String × CTree)}, wf loc store = true →
      (n, FsTree.file m) ∈ loc →
      ∀ fm cs, lookupN n store ≠ some (CTree.dir fm cs) := by
  induction loc with
  | nil => intro store _ hm; simp at hm
  | cons p rest ih =>
    intro store h hm
    rcases List.mem_cons.mp hm with hh | hh
    · cases p with
      | mk n2 t =>
        injection hh with hn ht
        subst hn
        subst ht
        exact (wf_cons_file h).1
    · cases p with
      | mk n2 t =>
        cases t with
        | file m2 => exact ih (wf_cons_file h).2.2 hh
        | dir cs2 => exact ih (wf_cons_dir h).2.2.2 hh

theorem wf_mem_dir {n : String} {cs : List (String × FsTree)}
    {loc : List (String × FsTree)} :
    ∀ {store : List (String × CTree)}, wf loc store = true →
      (n, FsTree.dir cs) ∈ loc →
      wf cs (childStoreOf store n) = true ∧
        ∀ fm, lookupN n store ≠ some (CTree.file fm) := by
  induction loc with
  | nil => intro store _ hm; simp at hm
  | cons p rest ih =>
    intro store h hm
    rcases List.mem_cons.mp hm with hh | hh
    · cases p with
      | mk n2 t =>
        injection hh with hn ht
        subst hn
        subst ht
        obtain ⟨h1, h2, _, _⟩ := wf_cons_dir h
        exact ⟨h1, h2⟩
    · cases p with
      | mk n2 t =>
        cases t with
        | file m2 => exact ih (wf_cons_file h).2.2 hh
        | dir cs2 => exact ih (wf_cons_dir h).2.2.2 hh




theorem syncedAux_nil (loc0 : List (String × FsTree))
    (store : List (String × CTree)) :
    syncedAux loc0 [] store =
      (store.all (fun q => hasName loc0 q.1) && nodupKeys store &&
        nodupKeys loc0) := by
  rw [syncedAux]

theorem syncedAux_cons_file (loc0 : List (String × FsTree)) (n : String)
    (m : Int) (rest : List (String × FsTree)) (store : List (String × CTree)) :
    syncedAux loc0 ((n, FsTree.file m) :: rest) store =
      ((match lookupN n store with
        | some (CTree.file cm) => decide (m ≤ cm)
        | _ => false) && syncedAux loc0 rest store) := by
  rw [syncedAux]

theorem syncedAux_cons_dir (loc0 : List (String × FsTree)) (n : String)
    (cs rest : List (String × FsTree)) (store : List (String × CTree)) :
    syncedAux loc0 ((n, FsTree.dir cs) :: rest) store =
      ((match lookupN n store with
        | some (CTree.dir _ cs') => syncedAux cs cs cs'
        | _ => false) && syncedAux loc0 rest store) := by
  rw [syncedAux]

theorem syncedAux_base {loc0 l : List (String × FsTree)}
    {store : List (String × CTree)} (h : syncedAux loc0 l store = true) :
    (∀ q ∈ store, hasName loc0 q.1 = true) ∧ nodupKeys store = true ∧
      nodupKeys loc0 = true := by
  induction l with
  | nil =>
    rw [syncedAux_nil] at h
    simp only [Bool.and_eq_true, List.all_eq_true] at h
    exact ⟨h.1.1, h.1.2, h.2⟩
  | cons p rest ih =>
    cases p with
    | mk n t =>
      cases t with
      | file m =>
        rw [syncedAux_cons_file] at h
        exact ih (Bool.and_elim_right h)
      | dir cs =>
        rw [syncedAux_cons_dir] at h
        exact ih (Bool.and_elim_right h)

theorem syncedAux_mem_file {loc0 l : List (String × FsTree)}
    {store : List (String × CTree)} {n : String} {m : Int}
    (h : syncedAux loc0 l store = true) (hm : (n, FsTree.file m) ∈ l) :
    ∃ cm, lookupN n store = some (CTree.file cm) ∧ m ≤ cm := by
  induction l with
  | nil => simp at hm
  | cons p rest ih =>
    rcases List.mem_cons.mp hm with hh | hh
    · cases p with
      | mk n2 t =>
        injection hh with hn ht
        subst hn
        subst ht
        rw [syncedAux_cons_file] at h
        have h1 := Bool.and_elim_left h
        cases hl : lookupN n store with
        | none =>
          rw [hl] at h1
          simp at h1
        | some t2 =>
          cases t2 with
          | file cm =>
            rw [hl] at h1
            simp only [decide_eq_true_eq] at h1
            exact ⟨cm, rfl, h1⟩
          | dir fm cs =>
            rw [hl] at h1
            simp at h1
    · cases p with
      | mk n2 t =>
        cases t with
        | file m2 =>
          rw [syncedAux_cons_file] at h
          exact ih (Bool.and_elim_right h) hh
        | dir cs =>
          rw [syncedAux_cons_dir] at h
          exact ih (Bool.and_elim_right h) hh

theorem syncedAux_mem_dir {loc0 l : List (String × FsTree)}
    {store : List (String × CTree)} {n : String} {cs : List (String × FsTree)}
    (h : syncedAux loc0 l store = true) (hm : (n, FsTree.dir cs) ∈ l) :
    ∃ fm cs', lookupN n store = some (CTree.dir fm cs') ∧
      synced cs cs' = true := by
  induction l with
  | nil => simp at hm
  | cons p rest ih =>
    rcases List.mem_cons.mp hm with hh | hh
    · cases p with
      | mk n2 t =>
        injection hh with hn ht
        subst hn
        subst ht
        rw [syncedAux_cons_dir] at h
        have h1 := Bool.and_elim_left h
        cases hl : lookupN n store with
        | none =>
          rw [hl] at h1
          simp at h1
        | some t2 =>
          cases t2 with
          | file cm =>
            rw [hl] at h1
            simp at h1
          | dir fm cs' =>
            rw [hl] at h1
            exact ⟨fm, cs', rfl, h1⟩
    · cases p with
      | mk n2 t =>
        cases t with
        | file m2 =>
          rw [syncedAux_cons_file] at h
          exact ih (Bool.and_elim_right h) hh
        | dir cs2 =>
          rw [syncedAux_cons_dir] at h
          exact ih (Bool.and_elim_right h) hh

theorem syncedAux_intro {loc0 : List (String × FsTree)}
    {store : List (String × CTree)}
    (hkeys : ∀ q ∈ store, hasName loc0 q.1 = true)
    (hnds : nodupKeys store = true) (hndl : nodupKeys loc0 = true) :
    ∀ l : List (String × FsTree),
      (∀ n m, (n, FsTree.file m) ∈ l →
        ∃ cm, lookupN n store = some (CTree.file cm) ∧ m ≤ cm) →
      (∀ n cs, (n, FsTree.dir cs) ∈ l →
        ∃ fm cs', lookupN n store = some (CTree.dir fm cs') ∧
          synced cs cs' = true) →
      syncedAux loc0 l store = true := by
  intro l
  induction l with
  | nil =>
    intro _ _
    rw [syncedAux_nil]
    simp only [Bool.and_eq_true, List.all_eq_true]
    exact ⟨⟨fun q hq => hkeys q hq, hnds⟩, hndl⟩
  | cons p rest ih =>
    intro hfile hdir
    cases p with
    | mk n t =>
      cases t with
      | file m =>
        rw [syncedAux_cons_file]
        obtain ⟨cm, hl, hle⟩ := hfile n m (List.mem_cons_self _ _)
        rw [hl]
        simp only [Bool.and_eq_true, decide_eq_true_eq]
        refine ⟨hle, ih ?_ ?_⟩
        · exact fun n2 m2 hm2 => hfile n2 m2 (List.mem_cons_of_mem _ hm2)
        · exact fun n2 cs2 hm2 => hdir n2 cs2 (List.mem_cons_of_mem _ hm2)
      | dir cs =>
        rw [syncedAux_cons_dir]
        obtain ⟨fm, cs', hl, hs⟩ := hdir n cs (List.mem_cons_self _ _)
        rw [hl]
        simp only [Bool.and_eq_true]
        refine ⟨hs, ih ?_ ?_⟩
        · exact fun n2 m2 hm2 => hfile n2 m2 (List.mem_cons_of_mem _ hm2)
        · exact fun n2 cs2 hm2 => hdir n2 cs2 (List.mem_cons_of_mem _ hm2)

theorem synced_intro {loc : List (String × FsTree)}
    {store : List (String × CTree)}
    (hfile : ∀ n m, (n, FsTree.file m) ∈ loc →
      ∃ cm, lookupN n store = some (CTree.file cm) ∧ m ≤ cm)
    (hdir : ∀ n cs, (n, FsTree.dir cs) ∈ loc →
      ∃ fm cs', lookupN n store = some (CTree.dir fm cs') ∧
        synced cs cs' = true)
    (hkeys : ∀ q ∈ store, hasName loc q.1 = true)
    (hnds : nodupKeys store = true) (hndl : nodupKeys loc = true) :
    synced loc store = true :=
  syncedAux_intro hkeys hnds hndl loc hfile hdir




/-! ### Effect of the gathered batch on store lookups -/

theorem hasName_append {α : Type} (l1 l2 : List (String × α)) (k : String) :
    hasName (l1 ++ l2) k = (hasName l1 k || hasName l2 k) := by
  unfold hasName
  rw [lookupN_append]
  cases h1 : lookupN k l1 with
  | none => simp
  | some v => simp

theorem nodupKeys_append_single {α : Type} {s : List (String × α)} {k : String}
    (t : α) (hnd : nodupKeys s = true) (h : hasName s k = false) :
    nodupKeys (s ++ [(k, t)]) = true := by
  induction s with
  | nil =>
    simp only [List.nil_append, nodupKeys, hasName, lookupN]
    rfl
  | cons p rest ih =>
    simp only [nodupKeys, Bool.and_eq_true, Bool.not_eq_true'] at hnd
    have hpk : p.1 ≠ k := by
      intro he
      unfold hasName lookupN at h
      rw [if_pos he] at h
      simp at h
    have hrest : hasName rest k = false := by
      unfold hasName lookupN at h
      rw [if_neg hpk] at h
      exact h
    simp only [List.cons_append, nodupKeys, Bool.and_eq_true, Bool.not_eq_true']
    refine ⟨?_, ih hnd.2 hrest⟩
    show hasName (rest ++ [(k, t)]) p.1 = false
    rw [hasName_append]
    simp only [Bool.or_eq_false_iff]
    refine ⟨hnd.1, ?_⟩
    unfold hasName lookupN
    rw [if_neg (show ¬(k, t).1 = p.1 from fun hc => hpk hc.symm)]
    rfl

theorem lookupN_map_set_self {s : List (String × CTree)} {k : String}
    (t : CTree) (h : hasName s k = true) :
    lookupN k (s.map (fun p => if p.1 = k then (p.1, t) else p)) = some t := by
  induction s with
  | nil => simp [hasName, lookupN] at h
  | cons p rest ih =>
    simp only [List.map_cons]
    by_cases hp : p.1 = k
    · rw [if_pos hp]
      show (if (p.1, t).1 = k then some (p.1, t).2 else _) = some t
      rw [if_pos hp]
    · rw [if_neg hp]
      show (if p.1 = k then some p.2 else
        lookupN k (rest.map (fun p => if p.1 = k then (p.1, t) else p))) = some t
      rw [if_neg hp]
      refine ih ?_
      unfold hasName lookupN at h
      rw [if_neg hp] at h
      exact h

theorem lookupN_map_set_ne {s : List (String × CTree)} {j k : String}
    (t : CTree) (h : j ≠ k) :
    lookupN j (s.map (fun p => if p.1 = k then (p.1, t) else p)) =
      lookupN j s := by
  induction s with
  | nil => rfl
  | cons p rest ih =>
    simp only [List.map_cons]
    by_cases hp : p.1 = k
    · rw [if_pos hp]
      show (if (p.1, t).1 = j then some (p.1, t).2 else _) =
        (if p.1 = j then some p.2 else lookupN j rest)
      have hpj : ¬p.1 = j := by
        rw [hp]
        exact fun hc => h hc.symm
      rw [if_neg hpj]
      show lookupN j (rest.map (fun p => if p.1 = k then (p.1, t) else p)) = _
      rw [if_neg hpj]
      exact ih
    · rw [if_neg hp]
      show (if p.1 = j then some p.2 else
          lookupN j (rest.map (fun p => if p.1 = k then (p.1, t) else p))) =
        (if p.1 = j then some p.2 else lookupN j rest)
      by_cases hj : p.1 = j
      · rw [if_pos hj, if_pos hj]
      · rw [if_neg hj, if_neg hj]
        exact ih

theorem hasName_map_set {s : List (String × CTree)} {j k : String} (t : CTree) :
    hasName (s.map (fun p => if p.1 = k then (p.1, t) else p)) j =
      hasName s j := by
  by_cases h : j = k
  · subst h
    unfold hasName
    cases hs : lookupN j s with
    | none =>
      have : hasName s j = false := by
        unfold hasName
        rw [hs]
        rfl
      cases hm : lookupN j (s.map (fun p => if p.1 = j then (p.1, t) else p)) with
      | none => simp [hs]
      | some v =>
        have hmem := mem_of_lookupN hm
        obtain ⟨q, hq, he⟩ := List.mem_map.mp hmem
        have : q.1 = j := by
          by_cases hq1 : q.1 = j
          · exact hq1
          · rw [if_neg hq1] at he
            rw [he] at hq1
            simp at hq1
        have hqs : (j, q.2) ∈ s := by
          have : q = (j, q.2) := by
            cases q
            simp_all
          rw [← this]
          exact hq
        have := lookupN_isSome_of_mem hqs
        rw [hs] at this
        simp at this
    | some v =>
      rw [lookupN_map_set_self t (by unfold hasName; rw [hs]; rfl)]
      simp
  · unfold hasName
    rw [lookupN_map_set_ne t h]

theorem nodupKeys_map_set {s : List (String × CTree)} {k : String} (t : CTree)
    (h : nodupKeys s = true) :
    nodupKeys (s.map (fun p => if p.1 = k then (p.1, t) else p)) = true := by
  induction s with
  | nil => rfl
  | cons p rest ih =>
    simp only [nodupKeys, Bool.and_eq_true, Bool.not_eq_true'] at h
    simp only [List.map_cons, nodupKeys, Bool.and_eq_true, Bool.not_eq_true']
    constructor
    · have hkey : (if p.1 = k then (p.1, t) else p).1 = p.1 := by
        by_cases hp : p.1 = k
        · rw [if_pos hp]
        · rw [if_neg hp]
      rw [hkey, hasName_map_set]
      exact h.1
    · exact ih h.2

theorem upsert_lookupN_self (s : List (String × CTree)) (k : String)
    (t : CTree) : lookupN k (upsert s k t) = some t := by
  unfold upsert
  cases h : hasName s k with
  | true =>
    simp only [if_pos rfl]
    exact lookupN_map_set_self t h
  | false =>
    simp only [Bool.false_eq_true, if_false]
    rw [lookupN_append]
    have hl : lookupN k s = none := by
      unfold hasName at h
      cases hl2 : lookupN k s
      · rfl
      · rw [hl2] at h
        simp at h
    rw [hl]
    simp [lookupN]

theorem upsert_lookupN_ne {j k : String} (s : List (String × CTree))
    (t : CTree) (h : j ≠ k) : lookupN j (upsert s k t) = lookupN j s := by
  unfold upsert
  cases hh : hasName s k with
  | true =>
    simp only [if_pos rfl]
    exact lookupN_map_set_ne t h
  | false =>
    simp only [Bool.false_eq_true, if_false]
    rw [lookupN_append]
    cases hl : lookupN j s with
    | some v => rfl
    | none =>
      have hkj : ¬k = j := fun hc => h hc.symm
      simp [lookupN, hkj]

theorem upsert_nodupKeys {s : List (String × CTree)} {k : String} (t : CTree)
    (h : nodupKeys s = true) : nodupKeys (upsert s k t) = true := by
  unfold upsert
  cases hh : hasName s k with
  | true =>
    simp only [if_pos rfl]
    exact nodupKeys_map_set t h
  | false =>
    simp only [Bool.false_eq_true, if_false]
    exact nodupKeys_append_single t h hh

theorem eraseN_lookupN_none {α : Type} {s : List (String × α)} {j k : String}
    (h : lookupN k s = none) : lookupN k (eraseN j s) = none := by
  cases h2 : lookupN k (eraseN j s) with
  | none => rfl
  | some v =>
    have := lookupN_isSome_of_mem (mem_eraseN (mem_of_lookupN h2))
    rw [h] at this
    simp at this

theorem applyOp_nodupKeys (T : Int) (fails : Op → Bool)
    {s : List (String × CTree)} (op : Op) (h : nodupKeys s = true) :
    nodupKeys (applyOp T fails s op) = true := by
  cases op with
  | upload n =>
    simp only [applyOp]
    by_cases hf : fails (Op.upload n)
    · rw [if_pos hf]
      exact h
    · rw [if_neg hf]
      exact upsert_nodupKeys _ h
  | overwrite n =>
    simp only [applyOp]
    by_cases hf : fails (Op.overwrite n)
    · rw [if_pos hf]
      exact h
    · rw [if_neg hf]
      exact upsert_nodupKeys _ h
  | delete n =>
    simp only [applyOp]
    by_cases hf : fails (Op.delete n)
    · rw [if_pos hf]
      exact h
    · rw [if_neg hf]
      exact nodupKeys_eraseN h

theorem applyOps_nodupKeys (T : Int) (fails : Op → Bool) :
    ∀ (ops : List Op) (s : List (String × CTree)), nodupKeys s = true →
      nodupKeys (applyOps T fails s ops) = true := by
  intro ops
  induction ops with
  | nil => exact fun s h => h
  | cons op rest ih =>
    intro s h
    exact ih _ (applyOp_nodupKeys T fails op h)

theorem applyOps_lookupN_no_k (T : Int) (fails : Op → Bool) {k : String} :
    ∀ (ops : List Op) (s : List (String × CTree)),
      (∀ op ∈ ops, op ≠ Op.upload k ∧ op ≠ Op.overwrite k ∧ op ≠ Op.delete k) →
      lookupN k (applyOps T fails s ops) = lookupN k s := by
  intro ops
  induction ops with
  | nil => exact fun s _ => rfl
  | cons op rest ih =>
    intro s h
    have hop := h op (List.mem_cons_self _ _)
    have hrest : ∀ op2 ∈ rest, op2 ≠ Op.upload k ∧ op2 ≠ Op.overwrite k ∧
        op2 ≠ Op.delete k := fun op2 h2 => h op2 (List.mem_cons_of_mem _ h2)
    show lookupN k (applyOps T fails (applyOp T fails s op) rest) = lookupN k s
    rw [ih _ hrest]
    cases op with
    | upload n =>
      have hnk : n ≠ k := fun he => hop.1 (by rw [he])
      simp only [applyOp]
      by_cases hf : fails (Op.upload n)
      · rw [if_pos hf]
      · rw [if_neg hf]
        exact upsert_lookupN_ne s _ (fun hc => hnk hc.symm)
    | overwrite n =>
      have hnk : n ≠ k := fun he => hop.2.1 (by rw [he])
      simp only [applyOp]
      by_cases hf : fails (Op.overwrite n)
      · rw [if_pos hf]
      · rw [if_neg hf]
        exact upsert_lookupN_ne s _ (fun hc => hnk hc.symm)
    | delete n =>
      have hnk : n ≠ k := fun he => hop.2.2 (by rw [he])
      simp only [applyOp]
      by_cases hf : fails (Op.delete n)
      · rw [if_pos hf]
      · rw [if_neg hf]
        exact lookupN_eraseN_ne (fun hc => hnk hc.symm) s

theorem applyOps_lookupN_none (T : Int) (fails : Op → Bool) {k : String} :
    ∀ (ops : List Op) (s : List (String × CTree)), lookupN k s = none →
      Op.upload k ∉ ops → Op.overwrite k ∉ ops →
      lookupN k (applyOps T fails s ops) = none := by
  intro ops
  induction ops with
  | nil => exact fun s h _ _ => h
  | cons op rest ih
    =>
    intro s h hup hov
    have hup2 : Op.upload k ∉ rest := fun hc => hup (List.mem_cons_of_mem _ hc)
    have hov2 : Op.overwrite k ∉ rest := fun hc => hov (List.mem_cons_of_mem _ hc)
    show lookupN k (applyOps T fails (applyOp T fails s op) rest) = none
    refine ih _ ?_ hup2 hov2
    cases op with
    | upload n =>
      have hnk : n ≠ k := by
        intro he
        exact hup (by rw [he]; exact List.mem_cons_self _ _)
      simp only [applyOp]
      by_cases hf : fails (Op.upload n)
      · rw [if_pos hf]
        exact h
      · rw [if_neg hf]
        rw [upsert_lookupN_ne s _ (fun hc => hnk hc.symm)]
        exact h
    | overwrite n =>
      have hnk : n ≠ k := by
        intro he
        exact hov (by rw [he]; exact List.mem_cons_self _ _)
      simp only [applyOp]
      by_cases hf : fails (Op.overwrite n)
      · rw [if_pos hf]
        exact h
      · rw [if_neg hf]
        rw [upsert_lookupN_ne s _ (fun hc => hnk hc.symm)]
        exact h
    | delete n =>
      simp only [applyOp]
      by_cases hf : fails (Op.delete n)
      · rw [if_pos hf]
        exact h
      · rw [if_neg hf]
        exact eraseN_lookupN_none h

theorem applyOps_lookupN_set (T : Int) {k : String} :
    ∀ (ops : List Op) (s : List (String × CTree)),
      (Op.upload k ∈ ops ∨ Op.overwrite k ∈ ops) → Op.delete k ∉ ops →
      lookupN k (applyOps T noFail s ops) = some (CTree.file T) := by
  intro ops
  induction ops with
  | nil =>
    intro s h _
    rcases h with h | h <;> simp at h
  | cons op rest ih =>
    intro s h hdel
    have hdel2 : Op.delete k ∉ rest := fun hc => hdel (List.mem_cons_of_mem _ hc)
    show lookupN k (applyOps T noFail (applyOp T noFail s op) rest) = _
    by_cases hrest : Op.upload k ∈ rest ∨ Op.overwrite k ∈ rest
    · exact ih _ hrest hdel2
    · have hop : op = Op.upload k ∨ op = Op.overwrite k := by
        rcases h with h | h
        · rcases List.mem_cons.mp h with hh | hh
          · exact Or.inl hh.symm
          · exact absurd (Or.inl hh) hrest
        · rcases List.mem_cons.mp h with hh | hh
          · exact Or.inr hh.symm
          · exact absurd (Or.inr hh) hrest
      have hnone : ∀ op2 ∈ rest, op2 ≠ Op.upload k ∧ op2 ≠ Op.overwrite k ∧
          op2 ≠ Op.delete k := by
        intro op2 h2
        refine ⟨?_, ?_, ?_⟩
        · intro he
          exact hrest (Or.inl (he ▸ h2))
        · intro he
          exact hrest (Or.inr (he ▸ h2))
        · intro he
          exact hdel2 (he ▸ h2)
      rw [applyOps_lookupN_no_k T noFail rest _ hnone]
      rcases hop with hop | hop <;> subst hop
      · show lookupN k (if noFail (Op.upload k) = true then s
          else upsert s k (CTree.file T)) = _
        rw [if_neg (by simp [noFail])]
        exact upsert_lookupN_self s k _
      · show lookupN k (if noFail (Op.overwrite k) = true then s
          else upsert s k (CTree.file T)) = _
        rw [if_neg (by simp [noFail])]
        exact upsert_lookupN_self s k _

theorem applyOps_lookupN_delete (T : Int) {k : String} :
    ∀ (ops : List Op) (s : List (String × CTree)), nodupKeys s = true →
      Op.delete k ∈ ops → Op.upload k ∉ ops → Op.overwrite k ∉ ops →
      lookupN k (applyOps T noFail s ops) = none := by
  intro ops
  induction ops with
  | nil =>
    intro s _ h _ _
    simp at h
  | cons op rest ih =>
    intro s hnd hdel hup hov
    have hup2 : Op.upload k ∉ rest := fun hc => hup (List.mem_cons_of_mem _ hc)
    have hov2 : Op.overwrite k ∉ rest := fun hc => hov (List.mem_cons_of_mem _ hc)
    show lookupN k (applyOps T noFail (applyOp T noFail s op) rest) = none
    by_cases hopk : op = Op.delete k
    · subst hopk
      refine applyOps_lookupN_none T noFail rest _ ?_ hup2 hov2
      show lookupN k (if noFail (Op.delete k) = true then s else eraseN k s) = none
      rw [if_neg (by simp [noFail])]
      exact lookupN_eraseN_self hnd
    · have hdel2 : Op.delete k ∈ rest := by
        rcases List.mem_cons.mp hdel with hh | hh
        · exact absurd hh.symm hopk
        · exact hh
      exact ih _ (applyOp_nodupKeys T noFail op hnd) hdel2 hup2 hov2




/-! ### Effect of the loop on the store -/

theorem lookupN_map_upd (h : CTree → CTree) (n : String) (k : String) :
    ∀ s : List (String × CTree),
      lookupN k (s.map (fun p => if p.1 = n then (p.1, h p.2) else p)) =
        if k = n then (lookupN k s).map h else lookupN k s := by
  intro s
  induction s with
  | nil =>
    by_cases hk : k = n
    · simp [lookupN, hk]
    · simp [lookupN, hk]
  | cons p rest ih =>
    by_cases hp : p.1 = n
    · by_cases hpk : p.1 = k
      · have hkn : k = n := by
          rw [← hpk]
          exact hp
        simp [lookupN, hp, hpk, hkn]
      · have hnk : ¬n = k := by
          rw [← hp]
          exact hpk
        simp [lookupN, hp, hpk, hnk, ih]
    · by_cases hpk : p.1 = k
      · have hkn : ¬k = n := by
          rw [← hpk]
          exact hp
        simp [lookupN, hp, hpk, hkn]
      · simp [lookupN, hp, hpk, ih]




theorem hasName_map_upd (h : CTree → CTree) (n j : String)
    (s : List (String × CTree)) :
    hasName (s.map (fun p => if p.1 = n then (p.1, h p.2) else p)) j =
      hasName s j := by
  unfold hasName
  rw [lookupN_map_upd]
  by_cases hj : j = n
  · rw [if_pos hj]
    cases lookupN j s <;> rfl
  · rw [if_neg hj]

theorem nodupKeys_map_upd (h : CTree → CTree) (n : String) :
    ∀ s : List (String × CTree), nodupKeys s = true →
      nodupKeys (s.map (fun p => if p.1 = n then (p.1, h p.2) else p)) = true := by
  intro s
  induction s with
  | nil => exact fun _ => rfl
  | cons p rest ih =>
    intro hnd
    simp only [nodupKeys, Bool.and_eq_true, Bool.not_eq_true'] at hnd
    obtain ⟨h1, h2⟩ := hnd
    by_cases hp : p.1 = n
    · rw [hp] at h1
      simp [List.map_cons, hp, nodupKeys, hasName_map_upd, h1, ih h2]
    · simp [List.map_cons, hp, nodupKeys, hasName_map_upd, h1, ih h2]

theorem lookupN_setChildren (s : List (String × CTree)) (n : String)
    (cs : List (String × CTree)) (k : String) :
    lookupN k (setChildren s n cs) =
      if k = n then (lookupN k s).map (childUpd cs) else lookupN k s :=
  lookupN_map_upd (childUpd cs) n k s

theorem childStoreOf_eq_of_lookupN {s1 s2 : List (String × CTree)}
    {k : String} (h : lookupN k s1 = lookupN k s2) :
    childStoreOf s1 k = childStoreOf s2 k := by
  unfold childStoreOf
  rw [h]

theorem lookupN_setChildren_self_dir {s : List (String × CTree)} {n : String}
    {fm : Int} {cs0 : List (String × CTree)} (cs1 : List (String × CTree))
    (h : lookupN n s = some (CTree.dir fm cs0)) :
    lookupN n (setChildren s n cs1) = some (CTree.dir fm cs1) := by
  rw [lookupN_setChildren, if_pos rfl, h]
  rfl

theorem hasName_setChildren (s : List (String × CTree)) (n : String)
    (cs : List (String × CTree)) (j : String) :
    hasName (setChildren s n cs) j = hasName s j :=
  hasName_map_upd (childUpd cs) n j s

theorem nodupKeys_setChildren {s : List (String × CTree)} {n : String}
    (cs : List (String × CTree)) (h : nodupKeys s = true) :
    nodupKeys (setChildren s n cs) = true :=
  nodupKeys_map_upd (childUpd cs) n s h

theorem lookupN_ensureFolder_absent {s : List (String × CTree)} {n : String}
    (T : Int) (h : hasName s n = false) :
    lookupN n (ensureFolder T s n) = some (CTree.dir T []) := by
  unfold ensureFolder
  rw [h]
  simp only [Bool.false_eq_true, if_false]
  rw [lookupN_append]
  have hl : lookupN n s = none := by
    unfold hasName at h
    cases hl2 : lookupN n s
    · rfl
    · rw [hl2] at h
      simp at h
  rw [hl]
  simp [lookupN]

theorem nodupKeys_ensureFolder {s : List (String × CTree)} {n : String}
    (T : Int) (h : nodupKeys s = true) :
    nodupKeys (ensureFolder T s n) = true := by
  unfold ensureFolder
  cases hh : hasName s n with
  | true => exact h
  | false =>
    simp only [Bool.false_eq_true, if_false]
    exact nodupKeys_append_single _ h hh

/-- The loop leaves the store's distinct keys distinct. -/
theorem walk_store_nodup (T : Int) (fails : Op → Bool) :
    ∀ (loc : List (String × FsTree)) (storeCur : List (String × CTree))
      (cf : List (String × Int)), nodupKeys storeCur = true →
      nodupKeys (walk T fails loc storeCur cf).store = true := by
  intro loc
  induction loc with
  | nil =>
    intro storeCur cf h
    rw [walk_nil]
    exact h
  | cons p rest ih =>
    intro storeCur cf h
    cases p with
    | mk n t =>
      cases t with
      | file m =>
        cases hcf : lookupN n cf with
        | none =>
          rw [walk_file_none T fails m rest storeCur hcf]
          exact ih storeCur cf h
        | some cm =>
          by_cases hlt : cm < m
          · rw [walk_file_some_lt T fails rest storeCur hcf hlt]
            exact ih storeCur (eraseN n cf) h
          · rw [walk_file_some_ge T fails rest storeCur hcf hlt]
            exact ih storeCur (eraseN n cf) h
      | dir cs =>
        rw [walk_dir]
        exact ih _ cf (nodupKeys_setChildren _ (nodupKeys_ensureFolder T h))

/-- Names that are not local directory names keep their store entry
through the loop (the loop only creates folders and rewrites folder
children for local directory names). -/
theorem walk_store_lookup_not_dir (T : Int) (fails : Op → Bool) {k : String} :
    ∀ (loc : List (String × FsTree)), isDirName loc k = false →
      ∀ (storeCur : List (String × CTree)) (cf : List (String × Int)),
      lookupN k (walk T fails loc storeCur cf).store = lookupN k storeCur := by
  intro loc
  induction loc with
  | nil =>
    intro _ storeCur cf
    rw [walk_nil]
  | cons p rest ih =>
    intro hd storeCur cf
    cases p with
    | mk n t =>
      cases t with
      | file m =>
        rw [isDirName_cons_file] at hd
        cases hcf : lookupN n cf with
        | none =>
          rw [walk_file_none T fails m rest storeCur hcf]
          exact ih hd storeCur cf
        | some cm =>
          by_cases hlt : cm < m
          · rw [walk_file_some_lt T fails rest storeCur hcf hlt]
            exact ih hd storeCur (eraseN n cf)
          · rw [walk_file_some_ge T fails rest storeCur hcf hlt]
            exact ih hd storeCur (eraseN n cf)
      | dir cs =>
        rw [isDirName_cons_dir] at hd
        simp only [Bool.or_eq_false_iff, beq_eq_false_iff_ne] at hd
        rw [walk_dir]
        rw [ih hd.2 _ cf]
        rw [lookupN_setChildren, if_neg hd.1.symm,
          lookupN_ensureFolder_ne T storeCur (fun hc => hd.1 hc.symm)]

/-- A local directory's store entry after the loop is a folder whose
children are the outcome of the child sub-pass on its original children. -/
theorem walk_store_lookup_dir (T : Int) (fails : Op → Bool) {k : String}
    {cs : List (String × FsTree)} :
    ∀ (loc : List (String × FsTree)), nodupKeys loc = true →
      (k, FsTree.dir cs) ∈ loc →
      ∀ (storeCur : List (String × CTree)) (cf : List (String × Int)),
      (∀ fm, lookupN k storeCur ≠ some (CTree.file fm)) →
      ∃ fm, lookupN k (walk T fails loc storeCur cf).store =
        some (CTree.dir fm
          (synchronization T fails cs (childStoreOf storeCur k)).store) := by
  intro loc
  induction loc with
  | nil =>
    intro _ hm
    simp at hm
  | cons p rest ih =>
    intro hnd hm storeCur cf hside
    simp only [nodupKeys, Bool.and_eq_true, Bool.not_eq_true'] at hnd
    rcases List.mem_cons.mp hm with hh | hh
    · cases p with
      | mk n t =>
        injection hh with hn ht
        subst hn
        subst ht
        rw [walk_dir]
        have hknotrest : isDirName rest k = false := by
          cases hdr : isDirName rest k
          · rfl
          · rw [hasName_of_isDirName hdr] at hnd
            simp at hnd
        rw [walk_store_lookup_not_dir T fails rest hknotrest _ cf]
        rw [childStoreOf_ensureFolder]
        cases hl : lookupN k storeCur with
        | none =>
          have habs : hasName storeCur k = false := by
            unfold hasName
            rw [hl]
            rfl
          refine ⟨T, ?_⟩
          rw [lookupN_setChildren, if_pos rfl,
            lookupN_ensureFolder_absent T habs]
          rfl
        | some t2 =>
          cases t2 with
          | file fm => exact absurd hl (hside fm)
          | dir fm cs' =>
            refine ⟨fm, ?_⟩
            have hhas : hasName storeCur k = true := by
              unfold hasName
              rw [hl]
              rfl
            have hens : ensureFolder T storeCur k = storeCur := by
              unfold ensureFolder
              rw [hhas]
              simp
            rw [hens]
            exact lookupN_setChildren_self_dir _ hl
    · cases p with
      | mk n t =>
        have hnk : n ≠ k := by
          intro he
          subst he
          have := lookupN_isSome_of_mem hh
          simp only [hasName] at hnd
          rw [hnd.1] at this
          simp at this
        cases t with
        | file m =>
          cases hcf : lookupN n cf with
          | none =>
            rw [walk_file_none T fails m rest storeCur hcf]
            exact ih hnd.2 hh storeCur cf hside
          | some cm =>
            by_cases hlt : cm < m
            · rw [walk_file_some_lt T fails rest storeCur hcf hlt]
              exact ih hnd.2 hh storeCur (eraseN n cf) hside
            · rw [walk_file_some_ge T fails rest storeCur hcf hlt]
              exact ih hnd.2 hh storeCur (eraseN n cf) hside
        | dir cs2 =>
          rw [walk_dir]
          have hpres : lookupN k (setChildren (ensureFolder T storeCur n) n
              (synchronization T fails cs2
                (childStoreOf (ensureFolder T storeCur n) n)).store) =
              lookupN k storeCur := by
            rw [lookupN_setChildren, if_neg (fun hc => hnk hc.symm),
              lookupN_ensureFolder_ne T storeCur (fun hc => hnk hc.symm)]
          obtain ⟨fm, hfm⟩ := ih hnd.2 hh
            (setChildren (ensureFolder T storeCur n) n
              (synchronization T fails cs2
                (childStoreOf (ensureFolder T storeCur n) n)).store) cf (by
            rw [hpres]
            exact hside)
          refine ⟨fm, ?_⟩
          rw [hfm]
          rw [childStoreOf_eq_of_lookupN hpres]




theorem sizeOf_mem_dir_lt {loc : List (String × FsTree)} {n : String}
    {cs : List (String × FsTree)} (hm : (n, FsTree.dir cs) ∈ loc) :
    sizeOf cs < sizeOf loc := by
  induction loc with
  | nil => simp at hm
  | cons p rest ih =>
    rcases List.mem_cons.mp hm with hh | hh
    · subst hh
      exact sizeOf_children_lt n cs rest
    · have h1 := ih hh
      have h2 := sizeOf_rest_lt p rest
      omega

theorem synchronization_store (T : Int) (fails : Op → Bool)
    (loc : List (String × FsTree)) (store : List (String × CTree)) :
    (synchronization T fails loc store).store =
      applyOps T fails (walk T fails loc store (get_info store)).store
        ((walk T fails loc store (get_info store)).ops ++
          ((walk T fails loc store (get_info store)).rem.filter
            (fun p => !isDirName loc p.1)).map (fun p => Op.delete p.1)) := rfl

theorem lookupN_eq_of_mem_nodup {α : Type} {l : List (String × α)} {k : String}
    {v : α} (hnd : nodupKeys l = true) (h : (k, v) ∈ l) :
    lookupN k l = some v := by
  induction l with
  | nil => simp at h
  | cons p rest ih =>
    simp only [nodupKeys, Bool.and_eq_true, Bool.not_eq_true'] at hnd
    rcases List.mem_cons.mp h with hh | hh
    · unfold lookupN
      rw [← hh]
      simp
    · have hpk : p.1 ≠ k := by
        intro he
        have := lookupN_isSome_of_mem hh
        rw [← he] at this
        simp only [hasName] at hnd
        rw [hnd.1] at this
        simp at this
      unfold lookupN
      rw [if_neg hpk]
      exact ih hnd.2 hh

theorem not_file_and_dir {loc : List (String × FsTree)} {k : String}
    (hnd : nodupKeys loc = true) (hf : isFileName loc k = true)
    (hd : isDirName loc k = true) : False := by
  obtain ⟨m, hm⟩ := isFileName_iff.mp hf
  obtain ⟨cs, hc⟩ := isDirName_iff.mp hd
  have h1 := lookupN_eq_of_mem_nodup hnd hm
  have h2 := lookupN_eq_of_mem_nodup hnd hc
  rw [h1] at h2
  simp at h2

theorem isDirName_false_of_file {loc : List (String × FsTree)} {k : String}
    {m : Int} (hnd : nodupKeys loc = true) (hm : (k, FsTree.file m) ∈ loc) :
    isDirName loc k = false := by
  cases hd : isDirName loc k
  · rfl
  · exact absurd (not_file_and_dir hnd (isFileName_of_mem_file hm) hd) (by simp)

theorem isFileName_false_of_dir {loc : List (String × FsTree)} {k : String}
    {cs : List (String × FsTree)} (hnd : nodupKeys loc = true)
    (hm : (k, FsTree.dir cs) ∈ loc) : isFileName loc k = false := by
  cases hf : isFileName loc k
  · rfl
  · exact absurd (not_file_and_dir hnd hf (isDirName_of_mem_dir hm)) (by simp)

/-- The store entry of a local file name after the cloud listing showed
timestamp `cm`: under well-formedness it is a cloud file of that stamp. -/
theorem store_file_entry {loc : List (String × FsTree)}
    {store : List (String × CTree)} {n : String} {m cm : Int}
    (hwf : wf loc store = true) (hm : (n, FsTree.file m) ∈ loc)
    (hcf : lookupN n (get_info store) = some cm) :
    lookupN n store = some (CTree.file cm) := by
  have hg := lookupN_get_info (n := n) store
  rw [hcf] at hg
  cases hl : lookupN n store with
  | none =>
    rw [hl] at hg
    simp at hg
  | some t =>
    rw [hl] at hg
    cases t with
    | file cm0 =>
      simp [CTree.modified] at hg
      rw [hg]
    | dir fm cs =>
      exact absurd hl (wf_mem_file hwf hm fm cs)

/-- A completed pass (all operations succeeding, server clock not behind
any local timestamp) leaves the cloud store synced with the local tree. -/
theorem pass_establishes_synced (T : Int) :
    ∀ loc : List (String × FsTree), ∀ store : List (String × CTree),
      wf loc store = true → mtimesBelow T loc = true →
      synced loc (synchronization T noFail loc store).store = true := by
  refine sizeOf_ind ?_
  intro loc IH store hwf hmt
  have hndl : nodupKeys loc = true := wf_nodup_loc hwf
  have hnds : nodupKeys store = true := wf_nodup_store hwf
  have hndcf : nodupKeys (get_info store) = true := nodupKeys_get_info hnds
  have hwstore : nodupKeys (walk T noFail loc store (get_info store)).store
      = true := walk_store_nodup T noFail loc store (get_info store) hnds
  -- the full batch of one level
  have hops : (synchronization T noFail loc store).ops =
      (walk T noFail loc store (get_info store)).ops ++
        ((walk T noFail loc store (get_info store)).rem.filter
          (fun p => !isDirName loc p.1)).map (fun p => Op.delete p.1) :=
    synchronization_ops T noFail loc store
  refine synced_intro ?_ ?_ ?_ ?_ hndl
  · -- every local file ends as a cloud file at least as new
    intro n m hm
    rw [synchronization_store]
    have hdel : Op.delete n ∉ (synchronization T noFail loc store).ops :=
      file_not_delete T noFail hnds hm
    rw [hops] at hdel
    cases hcf : lookupN n (get_info store) with
    | none =>
      refine ⟨T, ?_, mtimesBelow_mem_file hmt hm⟩
      refine applyOps_lookupN_set T _ _ (Or.inl ?_) hdel
      refine List.mem_append.mpr (Or.inl ?_)
      refine List.count_pos_iff.mp ?_
      rw [walk_upload_count T noFail hndl hm store (get_info store), hcf]
      simp
    | some cm =>
      by_cases hlt : cm < m
      · refine ⟨T, ?_, mtimesBelow_mem_file hmt hm⟩
        refine applyOps_lookupN_set T _ _ (Or.inr ?_) hdel
        refine List.mem_append.mpr (Or.inl ?_)
        refine List.count_pos_iff.mp ?_
        rw [walk_overwrite_count T noFail hndl hm store (get_info store), hcf]
        simp [hlt]
      · -- no operation: the old entry (file cm, m ≤ cm) is kept
        refine ⟨cm, ?_, by omega⟩
        have hupz := walk_upload_count T noFail hndl hm store (get_info store)
        rw [hcf] at hupz
        simp at hupz
        have hovz := walk_overwrite_count T noFail hndl hm store (get_info store)
        rw [hcf] at hovz
        simp only [if_neg hlt] at hovz
        have hnone : ∀ op ∈ (walk T noFail loc store (get_info store)).ops ++
            ((walk T noFail loc store (get_info store)).rem.filter
              (fun p => !isDirName loc p.1)).map (fun p => Op.delete p.1),
            op ≠ Op.upload n ∧ op ≠ Op.overwrite n ∧ op ≠ Op.delete n := by
          intro op hop
          refine ⟨?_, ?_, ?_⟩ <;> intro he <;> subst he
          · rcases List.mem_append.mp hop with h1 | h1
            · have := List.count_pos_iff.mpr h1
              rw [hupz] at this
              simp at this
            · exact upload_not_mem_dels h1
          · rcases List.mem_append.mp hop with h1 | h1
            · have := List.count_pos_iff.mpr h1
              rw [hovz] at this
              simp at this
            · exact overwrite_not_mem_dels h1
          · exact hdel hop
        rw [applyOps_lookupN_no_k T noFail _ _ hnone]
        rw [walk_store_lookup_not_dir T noFail loc
          (isDirName_false_of_file hndl hm) store (get_info store)]
        exact store_file_entry hwf hm hcf
  · -- every local directory ends as a cloud folder, recursively synced
    intro n cs hm
    rw [synchronization_store]
    have hside := (wf_mem_dir hwf hm).2
    obtain ⟨fm, hfm⟩ := walk_store_lookup_dir T noFail loc hndl hm store
      (get_info store) hside
    have hnotfile : isFileName loc n = false := isFileName_false_of_dir hndl hm
    have hisdir : isDirName loc n = true := isDirName_of_mem_dir hm
    have hnone : ∀ op ∈ (walk T noFail loc store (get_info store)).ops ++
        ((walk T noFail loc store (get_info store)).rem.filter
          (fun p => !isDirName loc p.1)).map (fun p => Op.delete p.1),
        op ≠ Op.upload n ∧ op ≠ Op.overwrite n ∧ op ≠ Op.delete n := by
      intro op hop
      have hz := walk_count_zero_of_not_file T noFail hnotfile store
        (get_info store)
      refine ⟨?_, ?_, ?_⟩ <;> intro he <;> subst he
      · rcases List.mem_append.mp hop with h1 | h1
        · have := List.count_pos_iff.mpr h1
          rw [hz.1] at this
          simp at this
        · exact upload_not_mem_dels h1
      · rcases List.mem_append.mp hop with h1 | h1
        · have := List.count_pos_iff.mpr h1
          rw [hz.2] at this
          simp at this
        · exact overwrite_not_mem_dels h1
      · rcases List.mem_append.mp hop with h1 | h1
        · exact walk_no_delete T noFail loc store (get_info store) h1
        · have := (mem_dels_iff.mp h1).2
          rw [hisdir] at this
          simp at this
    rw [applyOps_lookupN_no_k T noFail _ _ hnone, hfm]
    refine ⟨fm, _, rfl, ?_⟩
    exact IH cs (sizeOf_mem_dir_lt hm) (childStoreOf store n)
      (wf_mem_dir hwf hm).1 (mtimesBelow_mem_dir hmt hm)
  · -- every surviving store entry bears a local name
    intro q hq
    cases hname : hasName loc q.1
    · exfalso
      have hnotd : isDirName loc q.1 = false := by
        cases hdd : isDirName loc q.1
        · rfl
        · rw [hasName_of_isDirName hdd] at hname
          simp at hname
      have hnotf : isFileName loc q.1 = false := by
        cases hff : isFileName loc q.1
        · rfl
        · rw [hasName_of_isFileName hff] at hname
          simp at hname
      have hwalkpres := walk_store_lookup_not_dir T noFail loc hnotd store
        (get_info store)
      have hnoupov : Op.upload q.1 ∉ (walk T noFail loc store
          (get_info store)).ops ∧ Op.overwrite q.1 ∉ (walk T noFail loc store
          (get_info store)).ops := by
        have hz := walk_count_zero_of_not_file T noFail hnotf store
          (get_info store)
        constructor <;> intro hc
        · have := List.count_pos_iff.mpr hc
          rw [hz.1] at this
          simp at this
        · have := List.count_pos_iff.mpr hc
          rw [hz.2] at this
          simp at this
      have hlooknone : lookupN q.1 ((synchronization T noFail loc store).store)
          = none := by
        rw [synchronization_store]
        cases hl : lookupN q.1 store with
        | none =>
          refine applyOps_lookupN_none T noFail _ _ (by rw [hwalkpres]; exact hl)
            ?_ ?_
          · intro hc
            rcases List.mem_append.mp hc with h1 | h1
            · exact hnoupov.1 h1
            · exact upload_not_mem_dels h1
          · intro hc
            rcases List.mem_append.mp hc with h1 | h1
            · exact hnoupov.2 h1
            · exact overwrite_not_mem_dels h1
        | some v =>
          have hcf : lookupN q.1 (get_info store) = some v.modified := by
            rw [lookupN_get_info, hl]
            rfl
          have hrem := @walk_rem T noFail q.1 loc store (get_info store) hndcf
          rw [hnotf] at hrem
          simp only [Bool.false_eq_true, if_false] at hrem
          rw [hcf] at hrem
          have hdelmem : Op.delete q.1 ∈
              ((walk T noFail loc store (get_info store)).rem.filter
                (fun p => !isDirName loc p.1)).map (fun p => Op.delete p.1) :=
            mem_dels_iff.mpr ⟨⟨v.modified, mem_of_lookupN hrem⟩, hnotd⟩
          refine applyOps_lookupN_delete T _ _ hwstore
            (List.mem_append.mpr (Or.inr hdelmem)) ?_ ?_
          · intro hc
            rcases List.mem_append.mp hc with h1 | h1
            · exact hnoupov.1 h1
            · exact upload_not_mem_dels h1
          · intro hc
            rcases List.mem_append.mp hc with h1 | h1
            · exact hnoupov.2 h1
            · exact overwrite_not_mem_dels h1
      have := lookupN_isSome_of_mem (l := (synchronization T noFail loc
        store).store) (by
          rw [show q = (q.1, q.2) from rfl] at hq
          exact hq)
      rw [hlooknone] at this
      simp at this
    · rfl
  · -- distinct keys survive
    rw [synchronization_store]
    exact applyOps_nodupKeys T noFail _ _ hwstore




theorem fileName_or_dirName {loc : List (String × FsTree)} {k : String}
    (h : hasName loc k = true) :
    isFileName loc k = true ∨ isDirName loc k = true := by
  unfold hasName at h
  cases hl : lookupN k loc with
  | none =>
    rw [hl] at h
    simp at h
  | some t =>
    have hmem := mem_of_lookupN hl
    cases t with
    | file m => exact Or.inl (isFileName_of_mem_file hmem)
    | dir cs => exact Or.inr (isDirName_of_mem_dir hmem)

theorem mem_get_info {store : List (String × CTree)} {k : String} {v : Int}
    (h : (k, v) ∈ get_info store) : hasName store k = true := by
  obtain ⟨q, hq, he⟩ := List.mem_map.mp h
  have hk : q.1 = k := by
    injection he with h1 _
  unfold hasName
  rw [← hk]
  exact lookupN_isSome_of_mem (by
    rw [show q = (q.1, q.2) from rfl] at hq
    exact hq)

/-- On a synced (local directory, store) pair, a pass classifies nothing:
zero counters and an empty task batch, at this level and recursively. -/
theorem synced_pass_zero (T2 : Int) (fails : Op → Bool) :
    ∀ loc : List (String × FsTree), ∀ store : List (String × CTree),
      synced loc store = true →
      (synchronization T2 fails loc store).counts = (0, 0, 0) ∧
      (synchronization T2 fails loc store).ops = [] := by
  refine sizeOf_ind ?_
  intro loc IH store hsync
  obtain ⟨hkeys, hnds, hndl⟩ := syncedAux_base hsync
  -- the loop classifies nothing
  have hwb : ∀ (l : List (String × FsTree)) (storeCur : List (String × CTree))
      (cf : List (String × Int)),
      (∀ x ∈ l, x ∈ loc) → nodupKeys l = true →
      (∀ n m, (n, FsTree.file m) ∈ l → ∃ cm, lookupN n cf = some cm ∧ m ≤ cm) →
      (∀ n cs, (n, FsTree.dir cs) ∈ l → ∃ fm cs',
        lookupN n storeCur = some (CTree.dir fm cs') ∧ synced cs cs' = true) →
      (walk T2 fails l storeCur cf).counts = (0, 0, 0) ∧
      (walk T2 fails l storeCur cf).ops = [] := by
    intro l
    induction l with
    | nil =>
      intro storeCur cf _ _ _ _
      rw [walk_nil]
      exact ⟨rfl, rfl⟩
    | cons p rest ihl =>
      intro storeCur cf hsub hnd hf hd
      simp only [nodupKeys, Bool.and_eq_true, Bool.not_eq_true'] at hnd
      cases p with
      | mk n t =>
        cases t with
        | file m =>
          obtain ⟨cm, hcm, hle⟩ := hf n m (List.mem_cons_self _ _)
          have hge : ¬cm < m := by omega
          rw [walk_file_some_ge T2 fails rest storeCur hcm hge]
          refine ihl storeCur (eraseN n cf)
            (fun x hx => hsub x (List.mem_cons_of_mem _ hx)) hnd.2 ?_
            (fun n2 cs2 h2 => hd n2 cs2 (List.mem_cons_of_mem _ h2))
          intro n2 m2 h2
          obtain ⟨cm2, hcm2, hle2⟩ := hf n2 m2 (List.mem_cons_of_mem _ h2)
          have hn2 : n2 ≠ n := by
            intro he
            subst he
            have := lookupN_isSome_of_mem h2
            simp only [hasName] at hnd
            rw [hnd.1] at this
            simp at this
          exact ⟨cm2, by rw [lookupN_eraseN_ne hn2 cf]; exact hcm2, hle2⟩
        | dir cs =>
          obtain ⟨fm, cs', hlk, hsync2⟩ := hd n cs (List.mem_cons_self _ _)
          have hhas : hasName storeCur n = true := by
            unfold hasName
            rw [hlk]
            rfl
          have hens : ensureFolder T2 storeCur n = storeCur := by
            unfold ensureFolder
            rw [hhas]
            simp
          have hchild : childStoreOf (ensureFolder T2 storeCur n) n = cs' := by
            rw [hens]
            unfold childStoreOf
            rw [hlk]
          rw [walk_dir, hchild]
          have hcsz := IH cs (sizeOf_mem_dir_lt (hsub (n, FsTree.dir cs)
            (List.mem_cons_self _ _))) cs' hsync2
          have hrest := ihl (setChildren (ensureFolder T2 storeCur n) n
              (synchronization T2 fails cs cs').store) cf
            (fun x hx => hsub x (List.mem_cons_of_mem _ hx)) hnd.2
            (fun n2 m2 h2 => hf n2 m2 (List.mem_cons_of_mem _ h2)) ?_
          · rw [hcsz.1, hrest.1, hrest.2]
            exact ⟨rfl, rfl⟩
          · intro n2 cs2 h2
            obtain ⟨fm2, cs2', hlk2, hs2⟩ := hd n2 cs2 (List.mem_cons_of_mem _ h2)
            have hn2 : n2 ≠ n := by
              intro he
              subst he
              have := lookupN_isSome_of_mem h2
              simp only [hasName] at hnd
              rw [hnd.1] at this
              simp at this
            refine ⟨fm2, cs2', ?_, hs2⟩
            rw [hens, lookupN_setChildren_ne _ _ hn2]
            exact hlk2
  have hz := hwb loc store (get_info store) (fun x hx => hx) hndl
    (fun n m hm => by
      obtain ⟨cm, hcm, hle⟩ := syncedAux_mem_file hsync hm
      exact ⟨cm, by rw [lookupN_get_info, hcm]; rfl, hle⟩)
    (fun n cs hm => syncedAux_mem_dir hsync hm)
  -- the delete sweep is empty: every remaining name is a local directory
  have hdels : ((walk T2 fails loc store (get_info store)).rem.filter
      (fun p => !isDirName loc p.1)) = [] := by
    rw [List.filter_eq_nil_iff]
    intro p hp
    have hcf := walk_rem_mem T2 fails loc store (get_info store) (by
      rw [show p = (p.1, p.2) from rfl] at hp
      exact hp)
    have hhasstore := mem_get_info hcf
    have hhasloc : hasName loc p.1 = true := by
      unfold hasName at hhasstore
      cases hl : lookupN p.1 store with
      | none =>
        rw [hl] at hhasstore
        simp at hhasstore
      | some q =>
        exact hkeys (p.1, q) (mem_of_lookupN hl)
    rcases fileName_or_dirName hhasloc with hcase | hcase
    · exfalso
      have hrem := @walk_rem T2 fails p.1 loc store (get_info store)
        (nodupKeys_get_info hnds)
      rw [hcase] at hrem
      simp only [if_pos rfl] at hrem
      have := lookupN_isSome_of_mem (l :=
        (walk T2 fails loc store (get_info store)).rem) (by
          rw [show p = (p.1, p.2) from rfl] at hp
          exact hp)
      rw [hrem] at this
      simp at this
    · simp [hcase]
  constructor
  · show addC (walk T2 fails loc store (get_info store)).counts
      (0, (((walk T2 fails loc store (get_info store)).rem.filter
        (fun p => !isDirName loc p.1)).map (fun p => Op.delete p.1)).length, 0)
      = (0, 0, 0)
    rw [hz.1, hdels]
    rfl
  · show (walk T2 fails loc store (get_info store)).ops ++
      ((walk T2 fails loc store (get_info store)).rem.filter
        (fun p => !isDirName loc p.1)).map (fun p => Op.delete p.1) = []
    rw [hz.2, hdels]
    rfl

/-- C3 (algebraic_relational).  Idempotence of a pass: if a pass completes
(all operations succeed, the server clock `T` is not behind any local
timestamp) over a well-formed tree and no local or remote change
intervenes, a second pass over the same tree classifies no operations,
returning zero uploaded, zero overwritten and zero deleted. -/
theorem c3_pass_idempotent (T T2 : Int) (loc : List (String × FsTree))
    (store : List (String × CTree))
    (hwf : wf loc store = true) (hmt : mtimesBelow T loc = true) :
    (synchronization T2 noFail loc
      (synchronization T noFail loc store).store).counts = (0, 0, 0) ∧
    (synchronization T2 noFail loc
      (synchronization T noFail loc store).store).ops = [] :=
  synced_pass_zero T2 noFail loc (synchronization T noFail loc store).store
    (pass_establishes_synced T loc store hwf hmt)

/-- Witness for C3: a concrete pass followed by a second pass that
classifies nothing. -/
theorem c3_pass_idempotent_witness :
    (synchronization 7 noFail [("a", FsTree.file 1)]
      (synchronization 5 noFail [("a", FsTree.file 1)]
        [("old", CTree.file 9)]).store).counts = (0, 0, 0) :=
  (c3_pass_idempotent 5 7 [("a", FsTree.file 1)] [("old", CTree.file 9)]
    (by simp [wf, nodupKeys, hasName, lookupN])
    (by simp [mtimesBelow])).1


end Sync
